import Mathlib

/-!
# UV overlap checker (`uvChecker/src/findUvOverlaps2.cpp`)

A shallow embedding of the sweep-line overlap checker
`FindUvOverlaps2` and of the shell pairing done in `redoIt`.

* `std::deque<Event>`, `std::vector<UvEdge>` and `std::set<UvEdge>` (in iteration
  order) are lists; `std::unordered_set<int> resultSet` is a `Finset Int`.
* Coordinates are an arbitrary type `F`; the shell pairing only compares them, so
  there `F` is any linear order.
* The classes `UvPoint`, `UvEdge` and `Event` are declared in headers that are not
  part of the translated file.  Their data members are the ones this file reads and
  writes; their member functions (`isIntersected`, the comparison operators,
  `setCrossingPointX`, `UvEdgeComparator`) are fields of `Prims`, so every theorem
  holds for whatever these functions compute.
* An index into `statusQueue` that is out of range is undefined behaviour in C++;
  the handlers return `none` there.
-/

namespace FindUvOverlaps2

/-! ## Data model -/

/-- A UV point: `UvPoint(u, v, index, shellIndex)`. -/
structure UvPoint (F : Type) where
  u : F
  v : F
  index : Int
  shellIndex : Int
  deriving DecidableEq, Inhabited

/-- A UV edge: `UvEdge(beginPt, endPt, edgeIndex)` together with the members the
checker reads (`beginIndex`, `endIndex`) and the mutable sweep coordinate written by
`setCrossingPointX`. -/
structure UvEdge (F : Type) where
  begin : UvPoint F
  end_ : UvPoint F
  index : Nat
  beginIndex : Int
  endIndex : Int
  crossingPointX : F
  deriving DecidableEq, Inhabited

/-- An event of the sweep.  `Event(status, point, edge, index)` fills `u`, `v` from
the point and leaves `otherEdge` default-constructed;
`Event(status, u, v, edge, otherEdge)` leaves `index` default. -/
structure Event (F : Type) where
  status : String
  u : F
  v : F
  edge : UvEdge F
  otherEdge : UvEdge F
  index : Int
  deriving DecidableEq, Inhabited

/-- The constructor `Event(status, point, edge, index)`. -/
def Event.atPoint {F : Type} [Inhabited F] (status : String) (point : UvPoint F)
    (edge : UvEdge F) (index : Int) : Event F :=
  { status := status, u := point.u, v := point.v, edge := edge, otherEdge := default,
    index := index }

/-- The constructor `Event(status, u, v, edge, otherEdge)`. -/
def Event.cross {F : Type} (status : String) (u v : F) (edge otherEdge : UvEdge F) :
    Event F :=
  { status := status, u := u, v := v, edge := edge, otherEdge := otherEdge, index := 0 }

/-- What `edgeA.isIntersected(edgeB, isParallel, intersect_u, intersect_v)` hands
back: the returned flag and the three reference parameters. -/
structure Hit (F : Type) where
  hit : Bool
  isParallel : Bool
  u : F
  v : F

/-- The member functions of `UvEdge` and `Event` used by the checker whose bodies are
outside the translated file. -/
structure Prims (F : Type) where
  /-- The call `UvEdge::isIntersected`, the primitive intersection test. -/
  isIntersected : UvEdge F → UvEdge F → Hit F
  /-- The operator `UvEdge::operator==`, used by `std::find`. -/
  edgeEq : UvEdge F → UvEdge F → Bool
  /-- The functor `UvEdgeComparator`, the order of the status structure. -/
  edgeCmp : UvEdge F → UvEdge F → Bool
  /-- The value `setCrossingPointX(v)` stores in `crossingPointX`. -/
  crossX : UvEdge F → F → F
  /-- The operator `Event::operator<`, the order of the event queue. -/
  eventLt : Event F → Event F → Bool
  /-- The operator `UvEdge::operator<`, the order of `std::set<UvEdge>`. -/
  edgeLess : UvEdge F → UvEdge F → Bool

/-- Status codes `MS::kSuccess` and `MS::kFailure`. -/
inductive MStatus where
  | kSuccess
  | kFailure
  deriving DecidableEq, Repr

/-- The state one run of `check` works on: its local `eventQueue` and `statusQueue`
and the member `resultSet`. -/
@[ext]
structure SweepState (F : Type) where
  eventQueue : List (Event F)
  statusQueue : List (UvEdge F)
  resultSet : Finset Int

/-- How a bounded run of the `while (true)` loop of `check` stops: the loop left
(with the returned status), an out-of-range read of `statusQueue`, or the step bound
reached with events still queued.  Each carries the state at that moment. -/
inductive Run (F : Type) where
  | finished (status : MStatus) (s : SweepState F)
  | undefinedRead (s : SweepState F)
  | outOfFuel (s : SweepState F)

/-- The state a run stopped in. -/
def Run.state {F : Type} : Run F → SweepState F
  | .finished _ s => s
  | .undefinedRead s => s
  | .outOfFuel s => s

/-! ## Library routines -/

/-- The call `std::sort(first, last, lt)`, as an insertion sort that keeps the order
of equivalent elements (`std::sort` leaves that order unspecified). -/
def stdSort {α : Type} (lt : α → α → Bool) (l : List α) : List α :=
  l.insertionSort (fun a b => lt b a = false)

/-- The call `std::find(first, last, x)` followed by `std::distance`: the position
of the first element `y` with `y == x`, or `none` for `last`. -/
def stdFind {α : Type} (eq : α → α → Bool) : List α → α → Option Nat
  | [], _ => none
  | y :: ys, x => if eq y x then some 0 else (stdFind eq ys x).map (· + 1)

/-! ## The sweep -/

/-- The method `UvEdge::setCrossingPointX`. -/
def setCrossingPointX {F : Type} (p : Prims F) (e : UvEdge F) (v : F) : UvEdge F :=
  { e with crossingPointX := p.crossX e v }

/-- The method `FindUvOverlaps2::checkEdgesAndCreateEvent` (lines 523-536). -/
def checkEdgesAndCreateEvent {F : Type} (p : Prims F) (edgeA edgeB : UvEdge F)
    (s : SweepState F) : SweepState F :=
  let r := p.isIntersected edgeA edgeB
  if r.hit then
    let resultSet :=
      insert edgeB.endIndex (insert edgeB.beginIndex
        (insert edgeA.endIndex (insert edgeA.beginIndex s.resultSet)))
    if r.isParallel = false then
      let crossEvent := Event.cross "intersect" r.u r.v edgeA edgeB
      { s with eventQueue := stdSort p.eventLt (s.eventQueue ++ [crossEvent]),
               resultSet := resultSet }
    else
      { s with resultSet := resultSet }
  else s

/-- The method `FindUvOverlaps2::doBegin` (lines 391-436). -/
def doBegin {F : Type} (p : Prims F) (currentEvent : Event F) (s : SweepState F) :
    Option (Bool × SweepState F) :=
  let edge := currentEvent.edge
  let pushed := s.statusQueue ++ [edge]
  let numStatus := pushed.length
  if numStatus = 1 then
    some (false, { s with statusQueue := pushed })
  else
    let statusQueue :=
      stdSort p.edgeCmp (pushed.map (fun e => setCrossingPointX p e currentEvent.v))
    let s1 := { s with statusQueue := statusQueue }
    match stdFind p.edgeEq statusQueue edge with
    | none => some (false, s1)
    | some index =>
      (statusQueue[index]?).bind fun currentEdge =>
        if index = 0 then
          (statusQueue[index + 1]?).bind fun nextEdge =>
            some (true, checkEdgesAndCreateEvent p currentEdge nextEdge s1)
        else if index = numStatus - 1 then
          (statusQueue[index - 1]?).bind fun previousEdge =>
            some (true, checkEdgesAndCreateEvent p currentEdge previousEdge s1)
        else
          (statusQueue[index + 1]?).bind fun nextEdge =>
          (statusQueue[index - 1]?).bind fun previousEdge =>
            some (true, checkEdgesAndCreateEvent p currentEdge previousEdge
              (checkEdgesAndCreateEvent p currentEdge nextEdge s1))

/-- The method `FindUvOverlaps2::doEnd` (lines 438-475).  The branch for
`removeIndex == statusQueue.size()` returns `MS::kFailure`, a non-zero status code,
from a function returning `bool`. -/
def doEnd {F : Type} (p : Prims F) (currentEvent : Event F) (s : SweepState F) :
    Option (Bool × SweepState F) :=
  let edge := currentEvent.edge
  match stdFind p.edgeEq s.statusQueue edge with
  | none => some (false, s)
  | some removeIndex =>
    if removeIndex = s.statusQueue.length then
      some (true, s)
    else
      let checked : Option (SweepState F) :=
        if s.statusQueue.length ≤ 2 then some s
        else if removeIndex = 0 then some s
        else if removeIndex = s.statusQueue.length - 1 then some s
        else
          (s.statusQueue[removeIndex + 1]?).bind fun nextEdge =>
          (s.statusQueue[removeIndex - 1]?).bind fun previousEdge =>
            some (checkEdgesAndCreateEvent p previousEdge nextEdge s)
      checked.map fun s1 =>
        (true, { s1 with statusQueue := s1.statusQueue.eraseIdx removeIndex })

/-- The method `FindUvOverlaps2::doCross` (lines 477-521). -/
def doCross {F : Type} (p : Prims F) (currentEvent : Event F) (s : SweepState F) :
    Option (Bool × SweepState F) :=
  if s.statusQueue.length ≤ 2 then some (false, s)
  else
    let thisEdge := currentEvent.edge
    let otherEdge := currentEvent.otherEdge
    match stdFind p.edgeEq s.statusQueue thisEdge,
          stdFind p.edgeEq s.statusQueue otherEdge with
    | some thisIndex, some otherIndex =>
      let small := if thisIndex > otherIndex then otherIndex else thisIndex
      let big := if thisIndex > otherIndex then thisIndex else otherIndex
      if small = 0 then
        (s.statusQueue[small]?).bind fun firstEdge =>
        (s.statusQueue[big + 1]?).bind fun secondEdge =>
          some (false, checkEdgesAndCreateEvent p firstEdge secondEdge s)
      else if big = s.statusQueue.length - 1 then
        (s.statusQueue[small - 1]?).bind fun firstEdge =>
        (s.statusQueue[big]?).bind fun secondEdge =>
          some (false, checkEdgesAndCreateEvent p firstEdge secondEdge s)
      else
        (s.statusQueue[small - 1]?).bind fun firstEdge =>
        (s.statusQueue[small]?).bind fun secondEdge =>
        (s.statusQueue[big]?).bind fun thirdEdge =>
        (s.statusQueue[big + 1]?).bind fun forthEdge =>
          some (false, checkEdgesAndCreateEvent p secondEdge forthEdge
            (checkEdgesAndCreateEvent p firstEdge thirdEdge s))
    | _, _ => some (false, s)

/-- The first loop of `check` (lines 353-362): a `begin` and an `end` event per edge,
numbered consecutively from `eventIndex`. -/
def initEvents {F : Type} [Inhabited F] : List (UvEdge F) → Int → List (Event F)
  | [], _ => []
  | edge :: rest, eventIndex =>
    Event.atPoint "begin" edge.begin edge eventIndex ::
      Event.atPoint "end" edge.end_ edge (eventIndex + 1) ::
        initEvents rest (eventIndex + 2)

/-- One pass through the body of the `while (true)` loop of `check` on a non-empty
queue (lines 372-385): `Sum.inl` is the state to loop on with, `Sum.inr` the way the
loop is left. -/
def checkStep {F : Type} (p : Prims F) (firstEvent : Event F) (s : SweepState F) :
    Sum (SweepState F) (Run F) :=
  if firstEvent.status = "begin" then
    match doBegin p firstEvent s with
    | some (_, s1) => .inl s1
    | none => .inr (.undefinedRead s)
  else if firstEvent.status = "end" then
    match doEnd p firstEvent s with
    | some (_, s1) => .inl s1
    | none => .inr (.undefinedRead s)
  else if firstEvent.status = "intersect" then
    match doCross p firstEvent s with
    | some (_, s1) => .inl s1
    | none => .inr (.undefinedRead s)
  else .inr (.finished .kFailure s)

/-- The `while (true)` loop of `check` (lines 368-386), run for at most `fuel`
iterations. -/
def checkLoop {F : Type} (p : Prims F) : Nat → SweepState F → Run F
  | fuel, s =>
    match s.eventQueue, fuel with
    | [], _ => .finished .kSuccess s
    | _ :: _, 0 => .outOfFuel s
    | firstEvent :: rest, fuel + 1 =>
      match checkStep p firstEvent { s with eventQueue := rest } with
      | .inl s1 => checkLoop p fuel s1
      | .inr r => r

/-- The method `FindUvOverlaps2::check` (lines 349-389) on the edges of the set in
iteration order, started with `resultSet` as the member result set. -/
def check {F : Type} [Inhabited F] (p : Prims F) (fuel : Nat) (edges : List (UvEdge F))
    (resultSet : Finset Int) : Run F :=
  checkLoop p fuel
    { eventQueue := stdSort p.eventLt (initEvents edges 0), statusQueue := [],
      resultSet := resultSet }

/-- The state `s` with the indices of `R` added to its result set. -/
def SweepState.addResults {F : Type} (R : Finset Int) (s : SweepState F) : SweepState F :=
  { s with resultSet := R ∪ s.resultSet }

/-- The run `r` with the indices of `R` added to the result set it stopped with. -/
def Run.addResults {F : Type} (R : Finset Int) : Run F → Run F
  | .finished status s => .finished status (s.addResults R)
  | .undefinedRead s => .undefinedRead (s.addResults R)
  | .outOfFuel s => .outOfFuel (s.addResults R)

/-- Whether the run stopped at an out-of-range read of `statusQueue`. -/
def Run.isUndefinedRead {F : Type} : Run F → Bool
  | .undefinedRead _ => true
  | _ => false

/-- Whether the run stopped because the step bound was reached. -/
def Run.isOutOfFuel {F : Type} : Run F → Bool
  | .outOfFuel _ => true
  | _ => false

/-- Everything of an edge except its sweep coordinate: the part `setCrossingPointX`
leaves alone. -/
def UvEdge.geom {F : Type} (e : UvEdge F) : UvPoint F × UvPoint F × Nat × Int × Int :=
  (e.begin, e.end_, e.index, e.beginIndex, e.endIndex)

/-- The edges (up to sweep coordinate) whose `begin` event is still queued. -/
def pendingBegins {F : Type} (q : List (Event F)) :
    List (UvPoint F × UvPoint F × Nat × Int × Int) :=
  (q.filter (fun ev => decide (ev.status = "begin"))).map (fun ev => ev.edge.geom)

/-- `Checked p s s1`: `s1` comes from `s` by calls of `checkEdgesAndCreateEvent` on
entries at two different positions of the status structure of `s`. -/
inductive Checked {F : Type} (p : Prims F) (s : SweepState F) : SweepState F → Prop where
  | refl : Checked p s s
  | step {s1 : SweepState F} {i j : Nat} {a b : UvEdge F} :
      Checked p s s1 → i ≠ j → s.statusQueue[i]? = some a → s.statusQueue[j]? = some b →
      Checked p s (checkEdgesAndCreateEvent p a b s1)

/-- Every index of `R` is an endpoint index of one of two edges of `G` (given up to
sweep coordinate), different from each other, on which the primitive test reported
a hit. -/
def Sound {F : Type} (p : Prims F) (G : List (UvPoint F × UvPoint F × Nat × Int × Int))
    (R : Finset Int) : Prop :=
  ∀ i ∈ R, ∃ a b : UvEdge F, a.geom ∈ G ∧ b.geom ∈ G ∧ a.geom ≠ b.geom ∧
    (p.isIntersected a b).hit = true ∧
    (i = a.beginIndex ∨ i = a.endIndex ∨ i = b.beginIndex ∨ i = b.endIndex)

/-- The invariant of the sweep behind the soundness of the result set: the active
edges together with the edges still to begin are distinct edges of `G`, and the
result set is sound. -/
def SweepInv {F : Type} (p : Prims F) (G : List (UvPoint F × UvPoint F × Nat × Int × Int))
    (s : SweepState F) : Prop :=
  (s.statusQueue.map UvEdge.geom ++ pendingBegins s.eventQueue).Subperm G ∧
    Sound p G s.resultSet

/-! ## Shell pairing -/

/-- A UV shell as the pairing step of `redoIt` reads it: its index, its bounding box
and its edge set (a `std::set<UvEdge>`, in iteration order). -/
structure UvShell (F : Type) where
  shellIndex : Nat
  uMax : F
  vMax : F
  uMin : F
  vMin : F
  edgeSet : List (UvEdge F)

/-- The method `FindUvOverlaps2::isShellOverlapped` (lines 332-347). -/
def isShellOverlapped {F : Type} [LinearOrder F] (shellA shellB : UvShell F) : Bool :=
  if shellA.uMax < shellB.uMin then false
  else if shellA.uMin > shellB.uMax then false
  else if shellA.vMax < shellB.vMin then false
  else if shellA.vMin > shellB.vMax then false
  else true

/-- The rightmost element of the list smaller than `x` is replaced by `x`; the result
is that element and the new list, or `none` when no element is smaller. -/
def swapLastSmaller (x : Bool) : List Bool → Option (Bool × List Bool)
  | [] => none
  | y :: ys =>
    match swapLastSmaller x ys with
    | some (z, ys1) => some (z, y :: ys1)
    | none => if y < x then some (y, x :: ys) else none

/-- The step of `std::prev_permutation` at a position `i` holding `x` whose suffix
`rest` has no element followed by a smaller one: when the successor of `x` is
smaller than `x`, `x` is swapped with the rightmost element smaller than it and the
suffix is reversed (flag `true`); otherwise the whole range is reversed (flag
`false`). -/
def permuteAt (x : Bool) (rest : List Bool) : Bool × List Bool :=
  match rest with
  | [] => (false, [x])
  | y :: _ =>
    if y < x then
      match swapLastSmaller x rest with
      | some (z, rest1) => (true, z :: rest1.reverse)
      | none => (false, (x :: rest).reverse)
    else (false, (x :: rest).reverse)

/-- The call `std::prev_permutation(first, last)` on a sequence of flags: the
rightmost position `i` whose successor is smaller is found, the element at `i` is
swapped with the rightmost element smaller than it, and the part after `i` is
reversed; the flag returned is `true`.  When there is no such position the sequence
is reversed and the flag is `false`. -/
def prevPermutation : List Bool → Bool × List Bool
  | [] => (false, [])
  | x :: rest =>
    match prevPermutation rest with
    | (true, rest1) => (true, x :: rest1)
    | (false, _) => permuteAt x rest

/-- The inner loop of `makeCombinations` (lines 546-551): the positions of the set
flags of `bitmask`, counted from `i`. -/
def maskIndices : List Bool → Nat → List Nat
  | [], _ => []
  | b :: bs, i => if b then i :: maskIndices bs (i + 1) else maskIndices bs (i + 1)

/-- The `do ... while (std::prev_permutation(...))` loop of `makeCombinations`
(lines 545-553), run for at most `fuel` iterations. -/
def makeCombinationsLoop : Nat → List Bool → List (List Nat) → Option (List (List Nat))
  | 0, _, _ => none
  | fuel + 1, bitmask, vec =>
    let vec1 := vec ++ [maskIndices bitmask 0]
    match prevPermutation bitmask with
    | (true, bitmask1) => makeCombinationsLoop fuel bitmask1 vec1
    | (false, _) => some vec1

/-- The call `std::string::resize(n, c)`. -/
def resize {α : Type} (l : List α) (n : Nat) (c : α) : List α :=
  l.take n ++ List.replicate (n - l.length) c

/-- The method `FindUvOverlaps2::makeCombinations` (lines 539-554) called with an
empty `vec`.  The bitmask holds the characters `1` and `0` as `true` and `false`. -/
def makeCombinations (N : Nat) : Option (List (List Nat)) :=
  makeCombinationsLoop (N * N + 1) (resize (List.replicate 2 true) N false) []

/-- The call `std::set::insert(x)` on a set ordered by `lt`: `x` goes in front of the
first element greater than it unless an element equivalent to it is met first. -/
def setInsert {α : Type} (lt : α → α → Bool) (x : α) : List α → List α
  | [] => [x]
  | y :: ys =>
    if lt x y then x :: y :: ys
    else if lt y x then y :: setInsert lt x ys
    else y :: ys

/-- The call `std::set::insert(first, last)`. -/
def setInsertRange {α : Type} (lt : α → α → Bool) (s : List α) (xs : List α) : List α :=
  xs.foldl (fun acc x => setInsert lt x acc) s

/-- The set `combinedEdges` of lines 277-279. -/
def combinedEdges {F : Type} (p : Prims F) (shellA shellB : UvShell F) : List (UvEdge F) :=
  setInsertRange p.edgeLess (setInsertRange p.edgeLess [] shellA.edgeSet) shellB.edgeSet

/-- The loop over `shellCombinations` (lines 269-287), carrying `shellArray` and
`shellIndices`. -/
def pairLoop {F : Type} [LinearOrder F] (p : Prims F) (uvShellArray : List (UvShell F)) :
    List (List Nat) → List (List (UvEdge F)) × List Nat →
      Option (List (List (UvEdge F)) × List Nat)
  | [], acc => some acc
  | comb :: rest, (shellArray, shellIndices) =>
    (comb[0]?).bind fun i0 => (comb[1]?).bind fun i1 =>
    (uvShellArray[i0]?).bind fun shellA => (uvShellArray[i1]?).bind fun shellB =>
      if isShellOverlapped shellA shellB then
        pairLoop p uvShellArray rest
          (shellArray ++ [combinedEdges p shellA shellB],
            (shellIndices.erase shellA.shellIndex).erase shellB.shellIndex)
      else pairLoop p uvShellArray rest (shellArray, shellIndices)

/-- The loop over `shellIndices` (lines 289-294): the edge sets of the shells left
un-merged. -/
def singleSets {F : Type} (uvShellArray : List (UvShell F)) :
    List Nat → Option (List (List (UvEdge F)))
  | [] => some []
  | index :: rest =>
    (uvShellArray[index]?).bind fun shell =>
      (singleSets uvShellArray rest).map fun sets => shell.edgeSet :: sets

/-- The edge sets `redoIt` hands to `check`, in order (lines 244-306): the only
shell's edge set when there is one shell, and otherwise the combined sets of the
overlapping pairs followed by the sets of the shells left in `shellIndices`. -/
def checkedEdgeSets {F : Type} [LinearOrder F] (p : Prims F)
    (uvShellArray : List (UvShell F)) : Option (List (List (UvEdge F))) :=
  if uvShellArray.length = 1 then
    (uvShellArray[0]?).map fun shell => [shell.edgeSet]
  else
    (makeCombinations uvShellArray.length).bind fun shellCombinations =>
    (pairLoop p uvShellArray shellCombinations ([], List.range uvShellArray.length)).bind
      fun r => (singleSets uvShellArray r.2).map fun singles => r.1 ++ singles

/-- The two-element lists `[i, j]` with `i < j < n`, in lexicographic order. -/
def pairsLex (n : Nat) : List (List Nat) :=
  (List.range n).flatMap fun i => (List.range' (i + 1) (n - 1 - i)).map fun j => [i, j]

/-- The pairs of `pairsLex n` from `[i, j]` on. -/
def pairsFrom (n i j : Nat) : List (List Nat) :=
  ((List.range' j (n - j)).map fun j1 => [i, j1]) ++
    (List.range' (i + 1) (n - 1 - i)).flatMap fun i1 =>
      (List.range' (i1 + 1) (n - 1 - i1)).map fun j1 => [i1, j1]

/-- The index pairs `(i, j)` with `i < j < n`, in lexicographic order. -/
def indexPairs (n : Nat) : List (Nat × Nat) :=
  (List.range n).flatMap fun i => (List.range' (i + 1) (n - 1 - i)).map fun j => (i, j)

/-- Whether the bounding boxes of the shells at positions `i` and `j` overlap. -/
def overlapsAt {F : Type} [LinearOrder F] (shells : List (UvShell F)) (i j : Nat) : Bool :=
  match shells[i]?, shells[j]? with
  | some shellA, some shellB => isShellOverlapped shellA shellB
  | _, _ => false

/-- The merged edge sets as the specification words them: one per pair of shells
`i < j` whose bounding boxes overlap, the union of the two edge sets. -/
def mergedSets {F : Type} [LinearOrder F] (p : Prims F) (shells : List (UvShell F)) :
    List (List (UvEdge F)) :=
  (indexPairs shells.length).filterMap fun pr =>
    match shells[pr.1]?, shells[pr.2]? with
    | some shellA, some shellB =>
      if isShellOverlapped shellA shellB then some (combinedEdges p shellA shellB) else none
    | _, _ => none

/-- Whether the bounding box of the shell at position `k` overlaps that of a shell at
another position. -/
def overlapsOther {F : Type} [LinearOrder F] (shells : List (UvShell F)) (k : Nat) : Bool :=
  (List.range shells.length).any fun j => decide (j ≠ k) && overlapsAt shells k j

/-- The individually checked edge sets as the specification words them: the edge
sets of the shells whose bounding box overlaps that of no other shell. -/
def unmergedSets {F : Type} [LinearOrder F] (shells : List (UvShell F)) :
    List (List (UvEdge F)) :=
  (List.range shells.length).filterMap fun k =>
    if overlapsOther shells k then none else (shells[k]?).map fun shell => shell.edgeSet

/-- Membership in a `std::set` ordered by `lt`: the set holds an element equivalent
to `x`. -/
def SetMem {α : Type} (lt : α → α → Bool) (x : α) (s : List α) : Prop :=
  ∃ y ∈ s, lt x y = false ∧ lt y x = false

/-- The pairs of positions `i < j` of shells whose bounding boxes overlap. -/
def overlappingPairs {F : Type} [LinearOrder F] (shells : List (UvShell F)) :
    List (Nat × Nat) :=
  (indexPairs shells.length).filter fun pr => overlapsAt shells pr.1 pr.2

/-- The positions of the shells whose bounding box overlaps that of no other shell. -/
def isolatedShells {F : Type} [LinearOrder F] (shells : List (UvShell F)) : List Nat :=
  (List.range shells.length).filter fun k => !overlapsOther shells k

/-! ## A concrete instance over integer coordinates

Used to evaluate the checker on explicit inputs.  The sweep runs along `v`. -/

/-- A segment test on integer coordinates: segments that cross at a point interior
to both are a hit that is not parallel (with the crossing point, rounded down);
collinear segments that share more than a point are a parallel hit. -/
def sampleIsIntersected (a b : UvEdge Int) : Hit Int :=
  let d1u := a.end_.u - a.begin.u
  let d1v := a.end_.v - a.begin.v
  let d2u := b.end_.u - b.begin.u
  let d2v := b.end_.v - b.begin.v
  let wu := b.begin.u - a.begin.u
  let wv := b.begin.v - a.begin.v
  let den := d1u * d2v - d1v * d2u
  if den = 0 then
    if wu * d1v - wv * d1u = 0 then
      let len := d1u * d1u + d1v * d1v
      let t0 := wu * d1u + wv * d1v
      let t1 := t0 + d2u * d1u + d2v * d1v
      { hit := decide (min t0 t1 < len ∧ 0 < max t0 t1), isParallel := true, u := 0, v := 0 }
    else { hit := false, isParallel := true, u := 0, v := 0 }
  else
    let tn := wu * d2v - wv * d2u
    let sn := wu * d1v - wv * d1u
    { hit := if 0 < den then decide (0 < tn ∧ tn < den ∧ 0 < sn ∧ sn < den)
             else decide (den < tn ∧ tn < 0 ∧ den < sn ∧ sn < 0),
      isParallel := false,
      u := a.begin.u + tn * d1u / den,
      v := a.begin.v + tn * d1v / den }

/-- The instance: edges are identified and ordered by `index`, the status is ordered
by the sweep coordinate, events by `(v, u, index)`, and the sweep coordinate is the
`u` of the edge at height `v` (rounded down). -/
def samplePrims : Prims Int where
  isIntersected := sampleIsIntersected
  edgeEq := fun a b => decide (a.index = b.index)
  edgeCmp := fun a b => decide (a.crossingPointX < b.crossingPointX)
  crossX := fun e v =>
    if e.end_.v = e.begin.v then e.begin.u
    else e.begin.u + (v - e.begin.v) * (e.end_.u - e.begin.u) / (e.end_.v - e.begin.v)
  eventLt := fun a b =>
    decide (a.v < b.v ∨ (a.v = b.v ∧ (a.u < b.u ∨ (a.u = b.u ∧ a.index < b.index))))
  edgeLess := fun a b => decide (a.index < b.index)

/-- The edge from `(u0, v0)` (point index `i0`) to `(u1, v1)` (point index `i1`)
with key `key`. -/
def sampleEdge (key : Nat) (i0 : Int) (u0 v0 : Int) (i1 : Int) (u1 v1 : Int) : UvEdge Int :=
  { begin := { u := u0, v := v0, index := i0, shellIndex := 0 },
    end_ := { u := u1, v := v1, index := i1, shellIndex := 0 },
    index := key, beginIndex := i0, endIndex := i1, crossingPointX := 0 }

/-- Edge X of the crossing pair: `(0,0)` to `(2,2)`. -/
def edgeX : UvEdge Int := sampleEdge 101 0 0 0 1 2 2

/-- Edge Y of the crossing pair: `(2,0)` to `(0,2)`. -/
def edgeY : UvEdge Int := sampleEdge 123 2 2 0 3 0 2

/-- Three pairwise crossing edges: `(0,0)-(8,8)`, `(3,0)-(3,8)` and `(8,0)-(0,8)`. -/
def triangleEdges : List (UvEdge Int) :=
  [sampleEdge 101 0 0 0 1 8 8, sampleEdge 123 2 3 0 3 3 8, sampleEdge 145 4 8 0 5 0 8]

/-- A shell with index `i`, box `[u0, u1] × [v0, v1]` and edge set `es`. -/
def sampleShell (i : Nat) (u0 u1 v0 v1 : Int) (es : List (UvEdge Int)) : UvShell Int :=
  { shellIndex := i, uMax := u1, vMax := v1, uMin := u0, vMin := v0, edgeSet := es }

/-- Three shells of which the first two overlap and the third overlaps none. -/
def mixedShells : List (UvShell Int) :=
  [sampleShell 0 0 2 0 2 [edgeX], sampleShell 1 1 3 0 2 [edgeY],
    sampleShell 2 5 6 0 1 [sampleEdge 145 4 5 0 5 6 1]]

/-- The status structure `doBegin` goes on with after `push_back`, the loop of
`setCrossingPointX` and `std::sort` (lines 394-407). -/
def statusAfterBegin {F : Type} (p : Prims F) (ev : Event F) (s : SweepState F) :
    List (UvEdge F) :=
  stdSort p.edgeCmp ((s.statusQueue ++ [ev.edge]).map fun e => setCrossingPointX p e ev.v)

/-! ## The edge key and the edge construction loop -/

/-- The digits `MString::set(int)` writes for a non-negative number, most significant
first, put in front of `acc`; `fuel` bounds the number of digits. -/
def decimalAux : Nat → Nat → List Nat → List Nat
  | 0, _, acc => acc
  | fuel + 1, n, acc =>
    if n < 10 then n :: acc else decimalAux fuel (n / 10) (n % 10 :: acc)

/-- The call `MString::set(int)` on a non-negative number: its decimal numeral, as the
list of its digits. -/
def decimal (n : Nat) : List Nat :=
  decimalAux (n + 1) n []

/-- The number a decimal numeral stands for. -/
def numeralValue (digits : List Nat) : Nat :=
  digits.foldl (fun value d => value * 10 + d) 0

/-- The call `MString::asUnsigned` on a decimal numeral, stored in an
`unsigned int` of 32 bits: the value of the numeral, reduced modulo `2 ^ 32` when it
is beyond the range. -/
def asUnsigned (digits : List Nat) : Nat :=
  numeralValue digits % 2 ^ 32

/-- The edge index of lines 193-208: the numeral `1`, then the smaller UV id, then
the larger one, read back as an unsigned number. -/
def edgeIndex (uvIdA uvIdB : Nat) : Nat :=
  let idA := if uvIdA < uvIdB then decimal uvIdA else decimal uvIdB
  let idB := if uvIdA < uvIdB then decimal uvIdB else decimal uvIdA
  asUnsigned ([1] ++ idA ++ idB)

/-- The shell array `sh1` has the shells of `sh` with edge sets that hold (as
`std::set`s ordered by `lt`) at least what they held in `sh`. -/
structure ShellsGrow {F : Type} (lt : UvEdge F → UvEdge F → Bool)
    (sh sh1 : List (UvShell F)) : Prop where
  length_eq : sh1.length = sh.length
  mono : ∀ (i : Nat) (shell : UvShell F), sh[i]? = some shell →
    ∃ shell1 : UvShell F, sh1[i]? = some shell1 ∧
      ∀ e, SetMem lt e shell.edgeSet → SetMem lt e shell1.edgeSet

/-- The edges (up to sweep coordinate) whose `end` event is still queued. -/
def pendingEnds {F : Type} (q : List (Event F)) :
    List (UvPoint F × UvPoint F × Nat × Int × Int) :=
  (q.filter (fun ev => decide (ev.status = "end"))).map (fun ev => ev.edge.geom)

/-- An `end` event at the head of the queue belongs to an edge whose `begin` event is
no longer queued. -/
def EndAfterBegin {F : Type} (q : List (Event F)) : Prop :=
  ∀ ev rest, q = ev :: rest → ev.status = "end" → ev.edge.geom ∉ pendingBegins rest

/-- The invariant of the sweep behind the status invariant: the active edges together
with the edges still to begin are the edges still to end; these are distinct edges of
`G`; and every queued event has one of the three tags. -/
structure StatusInv {F : Type} (G : List (UvPoint F × UvPoint F × Nat × Int × Int))
    (s : SweepState F) : Prop where
  balance : (s.statusQueue.map UvEdge.geom ++ pendingBegins s.eventQueue).Perm
    (pendingEnds s.eventQueue)
  ends : (pendingEnds s.eventQueue).Subperm G
  tags : ∀ ev ∈ s.eventQueue,
    ev.status = "begin" ∨ ev.status = "end" ∨ ev.status = "intersect"

/-- The condition `EndAfterBegin` as a test. -/
def endAfterBeginTest {F : Type} [DecidableEq F] : List (Event F) → Bool
  | [] => true
  | ev :: rest =>
    if ev.status = "end" then !(decide (ev.edge.geom ∈ pendingBegins rest)) else true

theorem stdSort_perm {α : Type} (lt : α → α → Bool) (l : List α) :
    (stdSort lt l).Perm l :=
  List.perm_insertionSort _ l

theorem stdSort_sorted {α : Type} (lt : α → α → Bool)
    (hasymm : ∀ a b, lt a b = true → lt b a = false)
    (hneg : ∀ a b c, lt a c = true → lt a b = true ∨ lt b c = true) (l : List α) :
    List.Sorted (fun a b => lt b a = false) (stdSort lt l) := by
  haveI : IsTotal α (fun a b => lt b a = false) := ⟨fun a b => by
    cases h : lt b a
    · exact Or.inl rfl
    · exact Or.inr (hasymm b a h)⟩
  haveI : IsTrans α (fun a b => lt b a = false) := ⟨fun a b c hab hbc => by
    cases h : lt c a
    · rfl
    · rcases hneg c b a h with h1 | h1
      · rw [h1] at hbc; exact absurd hbc (by simp)
      · rw [h1] at hab; exact absurd hab (by simp)⟩
  exact List.sorted_insertionSort _ l

/-- C4: when the primitive test reports a hit, `checkEdgesAndCreateEvent` leaves the
begin and end index of both edges in the result set; for a parallel hit the event
queue is as it was; for a hit that is not parallel the queue is the old queue with
the one `intersect` event for the pair added, and it is sorted; so the queue grows
(by one event) exactly when the hit is not parallel.  The order `eventLt` is taken to
be a strict weak order, as `std::sort` requires. -/
theorem checkEdgesAndCreateEvent_hit {F : Type} (p : Prims F)
    (hasymm : ∀ a b, p.eventLt a b = true → p.eventLt b a = false)
    (hneg : ∀ a b c, p.eventLt a c = true → p.eventLt a b = true ∨ p.eventLt b c = true)
    (edgeA edgeB : UvEdge F) (s : SweepState F)
    (hhit : (p.isIntersected edgeA edgeB).hit = true) :
    (edgeA.beginIndex ∈ (checkEdgesAndCreateEvent p edgeA edgeB s).resultSet ∧
      edgeA.endIndex ∈ (checkEdgesAndCreateEvent p edgeA edgeB s).resultSet ∧
      edgeB.beginIndex ∈ (checkEdgesAndCreateEvent p edgeA edgeB s).resultSet ∧
      edgeB.endIndex ∈ (checkEdgesAndCreateEvent p edgeA edgeB s).resultSet) ∧
    ((p.isIntersected edgeA edgeB).isParallel = true →
      (checkEdgesAndCreateEvent p edgeA edgeB s).eventQueue = s.eventQueue) ∧
    ((p.isIntersected edgeA edgeB).isParallel = false →
      (checkEdgesAndCreateEvent p edgeA edgeB s).eventQueue.Perm
        (s.eventQueue ++ [Event.cross "intersect" (p.isIntersected edgeA edgeB).u
          (p.isIntersected edgeA edgeB).v edgeA edgeB]) ∧
      List.Sorted (fun a b => p.eventLt b a = false)
        (checkEdgesAndCreateEvent p edgeA edgeB s).eventQueue) ∧
    ((checkEdgesAndCreateEvent p edgeA edgeB s).eventQueue.length
        = s.eventQueue.length + 1 ↔ (p.isIntersected edgeA edgeB).isParallel = false) := by
  cases hpar : (p.isIntersected edgeA edgeB).isParallel
  · simp [checkEdgesAndCreateEvent, hhit, hpar]
    refine ⟨⟨stdSort_perm _ _, stdSort_sorted _ hasymm hneg _⟩, ?_⟩
    rw [(stdSort_perm _ _).length_eq]; simp
  · simp [checkEdgesAndCreateEvent, hhit, hpar]

theorem checkLoop_single {F : Type} [Inhabited F] (p : Prims F) (e : UvEdge F) (n : Nat) :
    ∃ q st, (check p n [e] ∅).state = ⟨q, st, ∅⟩ ∧ (∀ ev ∈ q, ev.status ≠ "intersect") ∧
      (2 ≤ n → check p n [e] ∅ = .finished .kSuccess ⟨[], st, ∅⟩) ∧
      ∀ f : UvEdge F → UvEdge F → Hit F,
        check { p with isIntersected := f } n [e] ∅ = check p n [e] ∅ := by
  simp only [check, initEvents, stdSort, List.insertionSort, List.foldr, List.orderedInsert]
  split_ifs with h
  · rcases n with _ | _ | n
    · exact ⟨[Event.atPoint "begin" e.begin e 0, Event.atPoint "end" e.end_ e (0 + 1)], [],
        rfl, by simp [Event.atPoint], by simp, fun f => rfl⟩
    · refine ⟨[Event.atPoint "end" e.end_ e (0 + 1)], [e], ?_, ?_, by simp, fun f => ?_⟩
      · simp [checkLoop, checkStep, Event.atPoint, doBegin, Run.state]
      · simp [Event.atPoint]
      · simp [checkLoop, checkStep, Event.atPoint, doBegin]
    · by_cases hf : p.edgeEq e e = true
      · refine ⟨[], [], ?_, by simp, fun _ => ?_, fun f => ?_⟩ <;>
          simp [checkLoop, checkStep, Event.atPoint, doBegin, doEnd, stdFind, hf, Run.state]
      · refine ⟨[], [e], ?_, by simp, fun _ => ?_, fun f => ?_⟩ <;>
          simp [checkLoop, checkStep, Event.atPoint, doBegin, doEnd, stdFind, hf, Run.state]
  · rcases n with _ | _ | n
    · exact ⟨[Event.atPoint "end" e.end_ e (0 + 1), Event.atPoint "begin" e.begin e 0], [],
        rfl, by simp [Event.atPoint], by simp, fun f => rfl⟩
    · refine ⟨[Event.atPoint "begin" e.begin e 0], [], ?_, ?_, by simp, fun f => ?_⟩
      · simp [checkLoop, checkStep, Event.atPoint, doEnd, stdFind, Run.state]
      · simp [Event.atPoint]
      · simp [checkLoop, checkStep, Event.atPoint, doEnd, stdFind]
    · refine ⟨[], [e], ?_, by simp, fun _ => ?_, fun f => ?_⟩ <;>
        simp [checkLoop, checkStep, Event.atPoint, doBegin, doEnd, stdFind, Run.state]

/-- C3: on an edge set of one edge, `check` run from an empty result set finishes
with success after two iterations and an empty result set; at no point of the run is
an index in the result set or an `intersect` event in the queue, and the run is the
same whatever the primitive intersection test is. -/
theorem check_single_edge {F : Type} [Inhabited F] (p : Prims F) (e : UvEdge F)
    (fuel : Nat) :
    (∃ st, check p (fuel + 2) [e] ∅ = .finished .kSuccess ⟨[], st, ∅⟩) ∧
    (∀ n, (check p n [e] ∅).state.resultSet = ∅ ∧
      ∀ ev ∈ (check p n [e] ∅).state.eventQueue, ev.status ≠ "intersect") ∧
    (∀ (f : UvEdge F → UvEdge F → Hit F) (n : Nat),
      check { p with isIntersected := f } n [e] ∅ = check p n [e] ∅) := by
  refine ⟨?_, ?_, ?_⟩
  · obtain ⟨q, st, _, _, h, _⟩ := checkLoop_single p e (fuel + 2)
    exact ⟨st, h (by omega)⟩
  · intro n
    obtain ⟨q, st, h, hq, _, _⟩ := checkLoop_single p e n
    rw [h]
    exact ⟨rfl, hq⟩
  · intro f n
    obtain ⟨q, st, _, _, _, h⟩ := checkLoop_single p e n
    exact h f

@[simp] theorem addResults_eventQueue {F : Type} (R : Finset Int) (s : SweepState F) :
    (s.addResults R).eventQueue = s.eventQueue := rfl

@[simp] theorem addResults_statusQueue {F : Type} (R : Finset Int) (s : SweepState F) :
    (s.addResults R).statusQueue = s.statusQueue := rfl

@[simp] theorem addResults_resultSet {F : Type} (R : Finset Int) (s : SweepState F) :
    (s.addResults R).resultSet = R ∪ s.resultSet := rfl

theorem checkEdgesAndCreateEvent_addResults {F : Type} (p : Prims F) (a b : UvEdge F)
    (R : Finset Int) (s : SweepState F) :
    checkEdgesAndCreateEvent p a b (s.addResults R)
      = (checkEdgesAndCreateEvent p a b s).addResults R := by
  unfold checkEdgesAndCreateEvent
  by_cases hh : (p.isIntersected a b).hit = true <;>
    by_cases hp : (p.isIntersected a b).isParallel = false <;>
    simp only [hh, hp, if_true, if_false] <;>
    ext1 <;> simp [Finset.insert_eq, Finset.union_left_comm] 

theorem addResults_withStatus {F : Type} (R : Finset Int) (s : SweepState F)
    (st : List (UvEdge F)) :
    ({ s.addResults R with statusQueue := st } : SweepState F)
      = SweepState.addResults R { s with statusQueue := st } := rfl

theorem doBegin_addResults {F : Type} (p : Prims F) (ev : Event F) (R : Finset Int)
    (s : SweepState F) :
    doBegin p ev (s.addResults R)
      = (doBegin p ev s).map (fun r => (r.1, r.2.addResults R)) := by
  unfold doBegin
  simp only [addResults_statusQueue, addResults_withStatus]
  split_ifs
  · rfl
  · split
    · rfl
    · simp only [Option.map_bind, checkEdgesAndCreateEvent_addResults]
      congr 1; funext currentEdge
      split_ifs <;> simp [Option.map_bind, Function.comp_def]

theorem doEnd_addResults {F : Type} (p : Prims F) (ev : Event F) (R : Finset Int)
    (s : SweepState F) :
    doEnd p ev (s.addResults R)
      = (doEnd p ev s).map (fun r => (r.1, r.2.addResults R)) := by
  unfold doEnd
  simp only [addResults_statusQueue, addResults_withStatus]
  split
  · rfl
  · split_ifs <;>
      simp [Option.map_bind, Function.comp_def, checkEdgesAndCreateEvent_addResults,
        addResults_withStatus] <;> rfl

theorem doCross_addResults {F : Type} (p : Prims F) (ev : Event F) (R : Finset Int)
    (s : SweepState F) :
    doCross p ev (s.addResults R)
      = (doCross p ev s).map (fun r => (r.1, r.2.addResults R)) := by
  unfold doCross
  simp only [addResults_statusQueue]
  split_ifs
  · rfl
  · split
    · split_ifs <;>
        simp [Option.map_bind, Function.comp_def, checkEdgesAndCreateEvent_addResults]
    · rfl

theorem checkStep_addResults {F : Type} (p : Prims F) (ev : Event F) (R : Finset Int)
    (s : SweepState F) :
    checkStep p ev (s.addResults R)
      = Sum.map (SweepState.addResults R) (Run.addResults R) (checkStep p ev s) := by
  unfold checkStep
  simp only [doBegin_addResults, doEnd_addResults, doCross_addResults]
  split_ifs
  · cases doBegin p ev s <;> rfl
  · cases doEnd p ev s <;> rfl
  · cases doCross p ev s <;> rfl
  · rfl

theorem checkLoop_addResults {F : Type} (p : Prims F) (R : Finset Int) (fuel : Nat) :
    ∀ s : SweepState F,
      checkLoop p fuel (s.addResults R) = (checkLoop p fuel s).addResults R := by
  induction fuel with
  | zero =>
    intro s
    rcases s with ⟨q, st, r⟩
    cases q <;> simp [checkLoop, SweepState.addResults, Run.addResults]
  | succ n ih =>
    intro s
    rcases s with ⟨q, st, r⟩
    cases q with
    | nil => simp [checkLoop, SweepState.addResults, Run.addResults]
    | cons ev rest =>
      have h := checkStep_addResults p ev R ⟨rest, st, r⟩
      simp only [checkLoop, SweepState.addResults] at h ⊢
      rw [h]
      cases checkStep p ev ⟨rest, st, r⟩ with
      | inl s1 => simpa [SweepState.addResults] using ih s1
      | inr r1 => rfl

/-- C10: the result set `check` leaves when started from `R` is `R` together with
the result set it leaves when started from the empty set (the run stops the same way
and with the same queues), so a second run on the outcome of a first adds nothing. -/
theorem check_idempotent {F : Type} [Inhabited F] (p : Prims F) (fuel : Nat)
    (edges : List (UvEdge F)) (R : Finset Int) :
    check p fuel edges R = (check p fuel edges ∅).addResults R ∧
    (check p fuel edges R).state.resultSet
      = R ∪ (check p fuel edges ∅).state.resultSet ∧
    (check p fuel edges (check p fuel edges R).state.resultSet).state.resultSet
      = (check p fuel edges R).state.resultSet := by
  have key : ∀ R' : Finset Int,
      check p fuel edges R' = (check p fuel edges ∅).addResults R' := by
    intro R'
    have h := checkLoop_addResults p R' fuel
      ⟨stdSort p.eventLt (initEvents edges 0), [], ∅⟩
    simpa [check, SweepState.addResults] using h
  have st : ∀ (R' : Finset Int) (r : Run F),
      (r.addResults R').state.resultSet = R' ∪ r.state.resultSet := by
    intro R' r
    cases r <;> rfl
  refine ⟨key R, ?_, ?_⟩
  · rw [key R, st]
  · rw [key (check p fuel edges R).state.resultSet, st, key R, st]
    simp [Finset.union_assoc]

/-! ### What the handlers do to the state -/

@[simp] theorem checkEdgesAndCreateEvent_statusQueue {F : Type} (p : Prims F)
    (a b : UvEdge F) (s : SweepState F) :
    (checkEdgesAndCreateEvent p a b s).statusQueue = s.statusQueue := by
  unfold checkEdgesAndCreateEvent
  by_cases hh : (p.isIntersected a b).hit = true <;>
    by_cases hp : (p.isIntersected a b).isParallel = false <;> simp [hh, hp]

theorem checkEdgesAndCreateEvent_eventQueue {F : Type} (p : Prims F)
    (a b : UvEdge F) (s : SweepState F) :
    (checkEdgesAndCreateEvent p a b s).eventQueue
      = if (p.isIntersected a b).hit = true ∧ (p.isIntersected a b).isParallel = false then
          stdSort p.eventLt (s.eventQueue ++ [Event.cross "intersect"
            (p.isIntersected a b).u (p.isIntersected a b).v a b])
        else s.eventQueue := by
  unfold checkEdgesAndCreateEvent
  by_cases hh : (p.isIntersected a b).hit = true <;>
    by_cases hp : (p.isIntersected a b).isParallel = false <;> simp [hh, hp]

theorem checkEdgesAndCreateEvent_resultSet {F : Type} (p : Prims F)
    (a b : UvEdge F) (s : SweepState F) :
    (checkEdgesAndCreateEvent p a b s).resultSet
      = if (p.isIntersected a b).hit = true then
          insert b.endIndex (insert b.beginIndex
            (insert a.endIndex (insert a.beginIndex s.resultSet)))
        else s.resultSet := by
  unfold checkEdgesAndCreateEvent
  by_cases hh : (p.isIntersected a b).hit = true <;>
    by_cases hp : (p.isIntersected a b).isParallel = false <;> simp [hh, hp]

theorem Checked.statusQueue_eq {F : Type} {p : Prims F} {s s1 : SweepState F}
    (h : Checked p s s1) : s1.statusQueue = s.statusQueue := by
  induction h with
  | refl => rfl
  | step _ _ _ _ ih => simpa using ih

theorem doCross_checked {F : Type} (p : Prims F) (ev : Event F) (s : SweepState F)
    (r : Bool × SweepState F) (h : doCross p ev s = some r) : Checked p s r.2 := by
  unfold doCross at h
  split_ifs at h with hlen
  · cases h; exact Checked.refl
  · dsimp only at h
    split at h
    · split_ifs at h <;> simp only [Option.bind_eq_some] at h <;>
        first
        | (obtain ⟨a, ha, b, hb, c, hc, d, hd, hr⟩ := h
           cases hr
           exact Checked.step (Checked.step Checked.refl (by omega) ha hc) (by omega) hb hd)
        | (obtain ⟨a, ha, b, hb, hr⟩ := h
           cases hr
           exact Checked.step Checked.refl (by omega) ha hb)
    · cases h; exact Checked.refl

theorem doEnd_checked {F : Type} (p : Prims F) (ev : Event F) (s : SweepState F)
    (r : Bool × SweepState F) (h : doEnd p ev s = some r) :
    r.2 = s ∨ ∃ s1 k, Checked p s s1 ∧
      r.2 = { s1 with statusQueue := s.statusQueue.eraseIdx k } := by
  unfold doEnd at h
  dsimp only at h
  split at h
  · cases h; exact Or.inl rfl
  · rename_i removeIndex _
    split_ifs at h with h0 h1 h2 h3
    · cases h; exact Or.inl rfl
    · cases h; exact Or.inr ⟨s, removeIndex, Checked.refl, rfl⟩
    · cases h; exact Or.inr ⟨s, removeIndex, Checked.refl, rfl⟩
    · cases h; exact Or.inr ⟨s, removeIndex, Checked.refl, rfl⟩
    · simp only [Option.map_eq_some', Option.bind_eq_some] at h
      obtain ⟨s1, ⟨a, ha, b, hb, hs1⟩, hr⟩ := h
      cases hr; cases hs1
      refine Or.inr ⟨_, removeIndex, Checked.step Checked.refl (?_ : removeIndex - 1 ≠ removeIndex + 1) hb ha, ?_⟩
      · omega
      · simp

theorem doBegin_checked {F : Type} (p : Prims F) (ev : Event F) (s : SweepState F)
    (r : Bool × SweepState F) (h : doBegin p ev s = some r) :
    ∃ st, (st.map UvEdge.geom).Perm (s.statusQueue.map UvEdge.geom ++ [ev.edge.geom]) ∧
      Checked p { s with statusQueue := st } r.2 := by
  unfold doBegin at h
  have hperm : ((stdSort p.edgeCmp ((s.statusQueue ++ [ev.edge]).map
      (fun e => setCrossingPointX p e ev.v))).map UvEdge.geom).Perm
      (s.statusQueue.map UvEdge.geom ++ [ev.edge.geom]) := by
    refine ((stdSort_perm _ _).map _).trans ?_
    rw [List.map_map]
    have : (UvEdge.geom ∘ fun e => setCrossingPointX p e ev.v) = (UvEdge.geom (F := F)) := by
      funext e; rfl
    rw [this]; simp
  dsimp only at h
  split_ifs at h with h1
  · cases h
    exact ⟨_, by simp, Checked.refl⟩
  · split at h
    · cases h; exact ⟨_, hperm, Checked.refl⟩
    · rename_i index _
      refine ⟨_, hperm, ?_⟩
      simp only [Option.bind_eq_some] at h
      obtain ⟨cur, hcur, h⟩ := h
      split_ifs at h with h2 h3
      · simp only [Option.bind_eq_some] at h
        obtain ⟨nxt, hn, hr⟩ := h
        cases hr
        exact Checked.step Checked.refl (Nat.ne_of_lt (Nat.lt_succ_self index)) hcur hn
      · simp only [Option.bind_eq_some] at h
        obtain ⟨prv, hpv, hr⟩ := h
        cases hr
        exact Checked.step Checked.refl (by omega) hcur hpv
      · simp only [Option.bind_eq_some] at h
        obtain ⟨nxt, hn, prv, hpv, hr⟩ := h
        cases hr
        exact Checked.step (Checked.step Checked.refl
          (Nat.ne_of_lt (Nat.lt_succ_self index)) hcur hn) (by omega) hcur hpv

/-! ### Soundness of the result set -/

theorem pendingBegins_perm {F : Type} {q q1 : List (Event F)} (h : q.Perm q1) :
    (pendingBegins q).Perm (pendingBegins q1) :=
  (h.filter _).map _

theorem pendingBegins_checkEdges {F : Type} (p : Prims F) (a b : UvEdge F)
    (s : SweepState F) :
    (pendingBegins (checkEdgesAndCreateEvent p a b s).eventQueue).Perm
      (pendingBegins s.eventQueue) := by
  rw [checkEdgesAndCreateEvent_eventQueue]
  split_ifs
  · refine (pendingBegins_perm (stdSort_perm _ _)).trans ?_
    simp [pendingBegins, Event.cross]
  · exact List.Perm.refl _

theorem Checked.pending_perm {F : Type} {p : Prims F} {s s1 : SweepState F}
    (h : Checked p s s1) :
    (pendingBegins s1.eventQueue).Perm (pendingBegins s.eventQueue) := by
  induction h with
  | refl => exact List.Perm.refl _
  | step _ _ _ _ ih => exact (pendingBegins_checkEdges _ _ _ _).trans ih

theorem Checked.sound {F : Type} {p : Prims F}
    {G : List (UvPoint F × UvPoint F × Nat × Int × Int)} {s s1 : SweepState F}
    (h : Checked p s s1) (hnd : (s.statusQueue.map UvEdge.geom).Nodup)
    (hsub : ∀ e ∈ s.statusQueue, e.geom ∈ G) (hs : Sound p G s.resultSet) :
    Sound p G s1.resultSet := by
  induction h with
  | refl => exact hs
  | @step s2 i j a b _ hij ha hb ih =>
    intro x hx
    rw [checkEdgesAndCreateEvent_resultSet] at hx
    split_ifs at hx with hhit
    · have hne : a.geom ≠ b.geom := by
        intro heq
        have hi := List.getElem?_eq_some.1 ha
        have hj := List.getElem?_eq_some.1 hb
        obtain ⟨hi1, hi2⟩ := hi
        obtain ⟨hj1, hj2⟩ := hj
        have hi3 : i < (s.statusQueue.map UvEdge.geom).length := by simpa using hi1
        have hj3 : j < (s.statusQueue.map UvEdge.geom).length := by simpa using hj1
        have := (@List.Nodup.getElem_inj_iff _ _ hnd i hi3 j hj3).1 (by simp [hi2, hj2, heq])
        exact hij this
      simp only [Finset.mem_insert] at hx
      have hamem := hsub a (List.getElem?_mem ha)
      have hbmem := hsub b (List.getElem?_mem hb)
      rcases hx with hx | hx | hx | hx | hx
      · exact ⟨a, b, hamem, hbmem, hne, hhit, by simp [hx]⟩
      · exact ⟨a, b, hamem, hbmem, hne, hhit, by simp [hx]⟩
      · exact ⟨a, b, hamem, hbmem, hne, hhit, by simp [hx]⟩
      · exact ⟨a, b, hamem, hbmem, hne, hhit, by simp [hx]⟩
      · exact ih x hx
    · exact ih x hx

theorem subperm_nodup {α : Type} {l G : List α} (h : l.Subperm G) (hG : G.Nodup) :
    l.Nodup := by
  obtain ⟨l1, hp, hs⟩ := h
  exact hp.nodup_iff.1 (hG.sublist hs)

theorem pendingBegins_cons_begin {F : Type} (ev : Event F) (q : List (Event F))
    (h : ev.status = "begin") :
    pendingBegins (ev :: q) = ev.edge.geom :: pendingBegins q := by
  simp [pendingBegins, h]

theorem pendingBegins_cons_other {F : Type} (ev : Event F) (q : List (Event F))
    (h : ev.status ≠ "begin") :
    pendingBegins (ev :: q) = pendingBegins q := by
  simp [pendingBegins, h]

theorem checkStep_inv {F : Type} (p : Prims F)
    (G : List (UvPoint F × UvPoint F × Nat × Int × Int)) (hG : G.Nodup)
    (ev : Event F) (s s1 : SweepState F)
    (hinv : SweepInv p G { s with eventQueue := ev :: s.eventQueue })
    (h : checkStep p ev s = .inl s1) : SweepInv p G s1 := by
  obtain ⟨hcar, hsound⟩ := hinv
  simp only at hcar hsound
  unfold checkStep at h
  split_ifs at h with hb he hi
  · -- begin
    cases hd : doBegin p ev s with
    | none => simp [hd] at h
    | some r =>
      simp only [hd, Sum.inl.injEq] at h
      obtain ⟨st, hperm, hch⟩ := doBegin_checked p ev s r hd
      rw [h] at hch
      rw [pendingBegins_cons_begin _ _ hb] at hcar
      have hcar1 : (st.map UvEdge.geom ++ pendingBegins s.eventQueue).Subperm G := by
        refine (List.Perm.subperm_right ?_).1 hcar
        refine (List.Perm.trans ?_ (hperm.symm.append_right _))
        simp
      refine ⟨?_, ?_⟩
      · rw [hch.statusQueue_eq]
        exact (List.Perm.subperm_right (hch.pending_perm.append_left _)).2 hcar1
      · refine hch.sound ?_ ?_ hsound
        · exact (List.nodup_append.1 (subperm_nodup hcar1 hG)).1
        · intro e heq
          exact hcar1.subset (List.mem_append_left _ (List.mem_map_of_mem _ heq))
  · -- end
    cases hd : doEnd p ev s with
    | none => simp [hd] at h
    | some r =>
      simp only [hd, Sum.inl.injEq] at h
      rw [pendingBegins_cons_other _ _ hb] at hcar
      have hnd := (List.nodup_append.1 (subperm_nodup hcar hG)).1
      have hsub : ∀ e ∈ s.statusQueue, e.geom ∈ G := fun e heq =>
        hcar.subset (List.mem_append_left _ (List.mem_map_of_mem _ heq))
      rcases doEnd_checked p ev s r hd with hr | ⟨s2, k, hch, hr⟩
      · rw [← h, hr]; exact ⟨hcar, hsound⟩
      · rw [← h, hr]
        refine ⟨?_, hch.sound hnd hsub hsound⟩
        refine List.Subperm.trans ?_ hcar
        refine List.Subperm.trans
          ((List.subperm_append_left _).2 hch.pending_perm.subperm) ?_
        exact (List.subperm_append_right _).2
          ((List.eraseIdx_sublist _ _).map _).subperm
  · -- intersect
    cases hd : doCross p ev s with
    | none => simp [hd] at h
    | some r =>
      simp only [hd, Sum.inl.injEq] at h
      rw [pendingBegins_cons_other _ _ hb] at hcar
      have hnd := (List.nodup_append.1 (subperm_nodup hcar hG)).1
      have hsub : ∀ e ∈ s.statusQueue, e.geom ∈ G := fun e heq =>
        hcar.subset (List.mem_append_left _ (List.mem_map_of_mem _ heq))
      have hch := doCross_checked p ev s r hd
      rw [h] at hch
      refine ⟨?_, hch.sound hnd hsub hsound⟩
      rw [hch.statusQueue_eq]
      exact (List.Perm.subperm_right (hch.pending_perm.append_left _)).2 hcar

theorem checkStep_inr_state {F : Type} (p : Prims F) (ev : Event F) (s : SweepState F)
    (r : Run F) (h : checkStep p ev s = .inr r) : r.state = s := by
  unfold checkStep at h
  split_ifs at h
  · cases hd : doBegin p ev s <;> simp [hd] at h; rw [← h]; rfl
  · cases hd : doEnd p ev s <;> simp [hd] at h; rw [← h]; rfl
  · cases hd : doCross p ev s <;> simp [hd] at h; rw [← h]; rfl
  · simp at h; rw [← h]; rfl

theorem checkLoop_sound {F : Type} (p : Prims F)
    (G : List (UvPoint F × UvPoint F × Nat × Int × Int)) (hG : G.Nodup) (fuel : Nat) :
    ∀ s : SweepState F, SweepInv p G s → Sound p G (checkLoop p fuel s).state.resultSet := by
  induction fuel with
  | zero =>
    intro s hinv
    rcases s with ⟨q, st, R⟩
    cases q <;> simpa [checkLoop, Run.state] using hinv.2
  | succ n ih =>
    intro s hinv
    rcases s with ⟨q, st, R⟩
    cases q with
    | nil => simpa [checkLoop, Run.state] using hinv.2
    | cons ev rest =>
      simp only [checkLoop]
      cases hstep : checkStep p ev ⟨rest, st, R⟩ with
      | inl s1 => exact ih s1 (checkStep_inv p G hG ev ⟨rest, st, R⟩ s1 hinv hstep)
      | inr r =>
        simp only
        rw [checkStep_inr_state p ev _ r hstep]
        exact hinv.2

theorem pendingBegins_initEvents {F : Type} [Inhabited F] (edges : List (UvEdge F)) :
    ∀ k : Int, pendingBegins (initEvents edges k) = edges.map UvEdge.geom := by
  induction edges with
  | nil => intro k; rfl
  | cons e rest ih =>
    intro k
    simp [initEvents, pendingBegins_cons_begin, pendingBegins_cons_other, Event.atPoint, ih]

/-- C1: whatever number of loop iterations `check` has made from an empty result
set, every index in the result set is an endpoint index of one of two different
edges of the edge set on which `isIntersected` reported a hit. -/
theorem check_sound {F : Type} [Inhabited F] (p : Prims F) (edges : List (UvEdge F))
    (hnodup : (edges.map UvEdge.geom).Nodup) (fuel : Nat) (i : Int)
    (hi : i ∈ (check p fuel edges ∅).state.resultSet) :
    ∃ a b : UvEdge F, a.geom ∈ edges.map UvEdge.geom ∧ b.geom ∈ edges.map UvEdge.geom ∧
      a.geom ≠ b.geom ∧ (p.isIntersected a b).hit = true ∧
      (i = a.beginIndex ∨ i = a.endIndex ∨ i = b.beginIndex ∨ i = b.endIndex) := by
  have hinv : SweepInv p (edges.map UvEdge.geom)
      ⟨stdSort p.eventLt (initEvents edges 0), [], ∅⟩ := by
    refine ⟨?_, ?_⟩
    · simp only [List.map_nil, List.nil_append]
      refine List.Perm.subperm ?_
      rw [← pendingBegins_initEvents edges 0]
      exact pendingBegins_perm (stdSort_perm _ _)
    · intro x hx; simp at hx
  exact checkLoop_sound p _ hnodup fuel _ hinv i hi

/-! ### Two crossing edges -/

theorem stdSort_pair {α : Type} (lt : α → α → Bool) (x y : α) :
    stdSort lt [x, y] = if lt y x = false then [x, y] else [y, x] := by
  simp [stdSort, List.insertionSort, List.orderedInsert]

theorem doBegin_second {F : Type} (p : Prims F)
    (hfind : ∀ a b : UvEdge F, a.geom = b.geom → p.edgeEq a b = true)
    (ev : Event F) (s : SweepState F) (e0 : UvEdge F) (hst : s.statusQueue = [e0]) :
    ∃ a b st, ((a.geom = e0.geom ∧ b.geom = ev.edge.geom) ∨
        (a.geom = ev.edge.geom ∧ b.geom = e0.geom)) ∧ st.length = 2 ∧
      doBegin p ev s
        = some (true, checkEdgesAndCreateEvent p a b { s with statusQueue := st }) := by
  have hy : p.edgeEq (setCrossingPointX p ev.edge ev.v) ev.edge = true := hfind _ _ rfl
  unfold doBegin
  simp only [hst, List.singleton_append, List.length_cons, List.length_nil, List.map_cons,
    List.map_nil, stdSort_pair]
  by_cases hc : p.edgeCmp (setCrossingPointX p ev.edge ev.v) (setCrossingPointX p e0 ev.v) = false
  · by_cases hx : p.edgeEq (setCrossingPointX p e0 ev.v) ev.edge = true
    · exact ⟨setCrossingPointX p e0 ev.v, setCrossingPointX p ev.edge ev.v,
        [setCrossingPointX p e0 ev.v, setCrossingPointX p ev.edge ev.v],
        Or.inl ⟨rfl, rfl⟩, rfl, by simp [hc, stdFind, hx]⟩
    · exact ⟨setCrossingPointX p ev.edge ev.v, setCrossingPointX p e0 ev.v,
        [setCrossingPointX p e0 ev.v, setCrossingPointX p ev.edge ev.v],
        Or.inr ⟨rfl, rfl⟩, rfl, by simp [hc, stdFind, hx, hy]⟩
  · exact ⟨setCrossingPointX p ev.edge ev.v, setCrossingPointX p e0 ev.v,
      [setCrossingPointX p ev.edge ev.v, setCrossingPointX p e0 ev.v],
      Or.inr ⟨rfl, rfl⟩, rfl, by simp [hc, stdFind, hy]⟩

theorem drain {F : Type} (p : Prims F) (fuel : Nat) :
    ∀ s : SweepState F, s.statusQueue.length ≤ 2 →
      (∀ ev ∈ s.eventQueue, ev.status = "end" ∨ ev.status = "intersect") →
      s.eventQueue.length ≤ fuel →
      ∃ s1, checkLoop p fuel s = .finished .kSuccess s1 ∧ s1.resultSet = s.resultSet := by
  induction fuel with
  | zero =>
    intro s _ _ hlen
    rcases s with ⟨q, st, R⟩
    cases q with
    | nil => exact ⟨_, by simp [checkLoop], rfl⟩
    | cons ev rest => simp at hlen
  | succ n ih =>
    intro s hst hev hlen
    rcases s with ⟨q, st, R⟩
    cases q with
    | nil => exact ⟨_, by simp [checkLoop], rfl⟩
    | cons ev rest =>
      simp only [checkLoop]
      simp only [List.length_cons, Nat.add_le_add_iff_right] at hlen
      have hrest : ∀ e ∈ rest, e.status = "end" ∨ e.status = "intersect" :=
        fun e he => hev e (List.mem_cons_of_mem _ he)
      simp only at hst
      rcases hev ev (List.mem_cons_self _ _) with he | he
      · have hstep : ∃ st1, st1.length ≤ 2 ∧
            checkStep p ev ⟨rest, st, R⟩ = .inl ⟨rest, st1, R⟩ := by
          unfold checkStep doEnd
          simp only [he]
          cases hf : stdFind p.edgeEq st ev.edge with
          | none => exact ⟨st, hst, by simp⟩
          | some k =>
            by_cases hk : k = st.length
            · exact ⟨st, hst, by simp [hk]⟩
            · refine ⟨st.eraseIdx k, ?_, by simp [hk, hst]⟩
              exact le_trans (List.eraseIdx_sublist _ _).length_le hst
        obtain ⟨st1, hst1, hs⟩ := hstep
        rw [hs]
        exact ih ⟨rest, st1, R⟩ hst1 hrest hlen
      · have hstep : checkStep p ev ⟨rest, st, R⟩ = .inl ⟨rest, st, R⟩ := by
          unfold checkStep doCross
          simp [he, hst]
        rw [hstep]
        exact ih ⟨rest, st, R⟩ hst hrest hlen

theorem geom_indices {F : Type} {a b : UvEdge F} (h : a.geom = b.geom) :
    a.beginIndex = b.beginIndex ∧ a.endIndex = b.endIndex := by
  simp only [UvEdge.geom, Prod.mk.injEq] at h
  exact ⟨h.2.2.2.1, h.2.2.2.2⟩

theorem crossing_pair_from_empty {F : Type} [Inhabited F] (p : Prims F) (X Y : UvEdge F)
    (hfind : ∀ a b : UvEdge F, a.geom = b.geom → p.edgeEq a b = true)
    (hhit : ∀ a b : UvEdge F,
      (a.geom = X.geom ∧ b.geom = Y.geom) ∨ (a.geom = Y.geom ∧ b.geom = X.geom) →
      (p.isIntersected a b).hit = true)
    (hbegin : ∀ ev ∈ (stdSort p.eventLt (initEvents [X, Y] 0)).take 2, ev.status = "begin")
    (fuel : Nat) :
    ∃ s, check p (fuel + 5) [X, Y] ∅ = .finished .kSuccess s ∧
      X.beginIndex ∈ s.resultSet ∧ X.endIndex ∈ s.resultSet ∧
      Y.beginIndex ∈ s.resultSet ∧ Y.endIndex ∈ s.resultSet := by
  have hperm := stdSort_perm p.eventLt (initEvents [X, Y] 0)
  have hnd : (initEvents [X, Y] 0).Nodup := by
    simp [initEvents, Event.atPoint]
  have hnd1 := hperm.nodup_iff.2 hnd
  have hcount := hperm.countP_eq (fun ev => decide (ev.status = "begin"))
  obtain ⟨q0, q1, q2, q3, hq⟩ : ∃ q0 q1 q2 q3,
      stdSort p.eventLt (initEvents [X, Y] 0) = [q0, q1, q2, q3] := by
    have hlen : (stdSort p.eventLt (initEvents [X, Y] 0)).length = 4 := by
      rw [hperm.length_eq]; rfl
    generalize stdSort p.eventLt (initEvents [X, Y] 0) = q at hlen
    rcases q with _ | ⟨q0, _ | ⟨q1, _ | ⟨q2, _ | ⟨q3, _ | ⟨q4, r⟩⟩⟩⟩⟩ <;>
      simp at hlen
    exact ⟨q0, q1, q2, q3, rfl⟩
  unfold check
  rw [hq] at hperm hnd1 hcount hbegin ⊢
  · 
    have h0 : q0.status = "begin" := hbegin q0 (by simp)
    have h1 : q1.status = "begin" := hbegin q1 (by simp)
    have hmem : ∀ e ∈ [q0, q1, q2, q3],
        e = Event.atPoint "begin" X.begin X 0 ∨ e = Event.atPoint "end" X.end_ X 1 ∨
        e = Event.atPoint "begin" Y.begin Y 2 ∨ e = Event.atPoint "end" Y.end_ Y 3 := by
      intro e he
      have := hperm.subset he
      simpa [initEvents] using this
    simp only [initEvents, List.countP_cons, List.countP_nil, h0, h1, Event.atPoint,
      decide_True, decide_False, if_true, if_false] at hcount
    have h2 : q2.status = "end" := by
      rcases hmem q2 (by simp) with h | h | h | h <;> rw [h] at hcount ⊢ <;>
        simp [Event.atPoint] at hcount ⊢
    have h3 : q3.status = "end" := by
      rcases hmem q3 (by simp) with h | h | h | h <;> rw [h] at hcount ⊢ <;>
        simp [Event.atPoint] at hcount ⊢
    have hedges : (q0.edge = X ∧ q1.edge = Y) ∨ (q0.edge = Y ∧ q1.edge = X) := by
      have hne : q0 ≠ q1 := by
        intro h
        simp [h] at hnd1
      rcases hmem q0 (by simp) with h | h | h | h <;>
        rcases hmem q1 (by simp) with h' | h' | h' | h' <;>
        first
        | (exfalso; rw [h] at h0; simp [Event.atPoint] at h0; done)
        | (exfalso; rw [h'] at h1; simp [Event.atPoint] at h1; done)
        | (exfalso; exact hne (h.trans h'.symm))
        | (left; rw [h, h']; exact ⟨rfl, rfl⟩)
        | (right; rw [h, h']; exact ⟨rfl, rfl⟩)
    have step1 : checkStep p q0 ⟨[q1, q2, q3], [], ∅⟩
        = .inl ⟨[q1, q2, q3], [q0.edge], ∅⟩ := by
      simp [checkStep, h0, doBegin]
    obtain ⟨a, b, st, hab, hstlen, hdo⟩ :=
      doBegin_second p hfind q1 ⟨[q2, q3], [q0.edge], ∅⟩ q0.edge rfl
    have step2 : checkStep p q1 ⟨[q2, q3], [q0.edge], ∅⟩
        = .inl (checkEdgesAndCreateEvent p a b ⟨[q2, q3], st, ∅⟩) := by
      simp [checkStep, h1, hdo]
    have hXY : (a.geom = X.geom ∧ b.geom = Y.geom) ∨ (a.geom = Y.geom ∧ b.geom = X.geom) := by
      rcases hedges with ⟨e0, e1⟩ | ⟨e0, e1⟩ <;> rw [e0, e1] at hab <;> tauto
    have hh := hhit a b hXY
    obtain ⟨s3, hs3, hres⟩ := drain p (fuel + 3)
      (checkEdgesAndCreateEvent p a b ⟨[q2, q3], st, ∅⟩)
      (by simp [hstlen])
      (by
        rw [checkEdgesAndCreateEvent_eventQueue]
        split_ifs
        · intro ev hev
          have := (stdSort_perm _ _).subset hev
          simp only [List.cons_append, List.nil_append, List.mem_cons, List.mem_singleton,
            List.not_mem_nil, or_false] at this
          rcases this with h | h | h
          · exact Or.inl (h ▸ h2)
          · exact Or.inl (h ▸ h3)
          · exact Or.inr (by rw [h]; rfl)
        · intro ev hev
          simp only [List.mem_cons, List.mem_singleton, List.not_mem_nil, or_false] at hev
          rcases hev with h | h
          · exact Or.inl (h ▸ h2)
          · exact Or.inl (h ▸ h3))
      (by
        rw [checkEdgesAndCreateEvent_eventQueue]
        split_ifs
        · rw [(stdSort_perm _ _).length_eq]; simp
        · simp)
    refine ⟨s3, ?_, ?_⟩
    · show checkLoop p (fuel + 3 + 1 + 1) _ = _
      simp only [checkLoop, step1, step2]
      exact hs3
    · rw [hres, checkEdgesAndCreateEvent_resultSet, if_pos hh]
      rcases hXY with ⟨ha, hb⟩ | ⟨ha, hb⟩ <;>
        obtain ⟨ha1, ha2⟩ := geom_indices ha <;>
        obtain ⟨hb1, hb2⟩ := geom_indices hb <;>
        simp [← ha1, ← ha2, ← hb1, ← hb2]

/-- C2: for two edges X and Y whose two `begin` events head the sorted event queue
and on which the primitive test reports a hit, `check`, whatever result set it starts
from, finishes with success within five iterations and the result set holds the begin
and end index of both edges. -/
theorem check_crossing_pair {F : Type} [Inhabited F] (p : Prims F) (X Y : UvEdge F)
    (hfind : ∀ a b : UvEdge F, a.geom = b.geom → p.edgeEq a b = true)
    (hhit : ∀ a b : UvEdge F,
      (a.geom = X.geom ∧ b.geom = Y.geom) ∨ (a.geom = Y.geom ∧ b.geom = X.geom) →
      (p.isIntersected a b).hit = true)
    (hbegin : ∀ ev ∈ (stdSort p.eventLt (initEvents [X, Y] 0)).take 2, ev.status = "begin")
    (fuel : Nat) (R : Finset Int) :
    ∃ s, check p (fuel + 5) [X, Y] R = .finished .kSuccess s ∧
      X.beginIndex ∈ s.resultSet ∧ X.endIndex ∈ s.resultSet ∧
      Y.beginIndex ∈ s.resultSet ∧ Y.endIndex ∈ s.resultSet := by
  obtain ⟨s, hs, h1, h2, h3, h4⟩ := crossing_pair_from_empty p X Y hfind hhit hbegin fuel
  have h := checkLoop_addResults p R (fuel + 5)
    ⟨stdSort p.eventLt (initEvents [X, Y] 0), [], ∅⟩
  have hR : check p (fuel + 5) [X, Y] R = (check p (fuel + 5) [X, Y] ∅).addResults R := by
    simpa [check, SweepState.addResults] using h
  refine ⟨s.addResults R, ?_, ?_, ?_, ?_, ?_⟩
  · rw [hR, hs]; rfl
  all_goals
    simp only [addResults_resultSet, Finset.mem_union]
    right
    assumption

/-! ### A run that stops at an out-of-range read -/

theorem checkLoop_add_fuel {F : Type} (p : Prims F) (k : Nat) (fuel : Nat) :
    ∀ s : SweepState F, (checkLoop p fuel s).isOutOfFuel = false →
      checkLoop p (fuel + k) s = checkLoop p fuel s := by
  induction fuel with
  | zero =>
    intro s h
    rcases s with ⟨q, st, R⟩
    cases q with
    | nil => cases k <;> simp [checkLoop]
    | cons ev rest => simp [checkLoop, Run.isOutOfFuel] at h
  | succ n ih =>
    intro s h
    rcases s with ⟨q, st, R⟩
    cases q with
    | nil => simp [checkLoop]
    | cons ev rest =>
      have e : n + 1 + k = (n + k) + 1 := by omega
      rw [e]
      simp only [checkLoop] at h ⊢
      cases hstep : checkStep p ev ⟨rest, st, R⟩ with
      | inl s1 =>
        rw [hstep] at h
        exact ih s1 h
      | inr r => rfl

/-- C9, evaluated on three pairwise crossing edges: whatever the step bound from 5
on, the loop of `check` stops in its fifth iteration at an out-of-range read of the
status structure, with three active edges and four events still queued. -/
theorem check_triangle_undefinedRead (n : Nat) :
    (check samplePrims (5 + n) triangleEdges ∅).isUndefinedRead = true ∧
    (check samplePrims (5 + n) triangleEdges ∅).state.statusQueue.length = 3 ∧
    (check samplePrims (5 + n) triangleEdges ∅).state.eventQueue.length = 4 := by
  have h5 : (check samplePrims 5 triangleEdges ∅).isUndefinedRead = true ∧
      (check samplePrims 5 triangleEdges ∅).state.statusQueue.length = 3 ∧
      (check samplePrims 5 triangleEdges ∅).state.eventQueue.length = 4 := by decide
  have hfuel : (check samplePrims 5 triangleEdges ∅).isOutOfFuel = false := by decide
  have : check samplePrims (5 + n) triangleEdges ∅ = check samplePrims 5 triangleEdges ∅ :=
    checkLoop_add_fuel samplePrims n 5 _ hfuel
  rw [this]
  exact h5

/-! ### `makeCombinations` enumerates the pairs -/

theorem prevPermutation_false_cons (rest : List Bool) :
    prevPermutation (false :: rest)
      = if (prevPermutation rest).1 then (true, false :: (prevPermutation rest).2)
        else (false, (false :: rest).reverse) := by
  rw [prevPermutation]
  rcases h : prevPermutation rest with ⟨b, r⟩
  cases b
  · cases rest with
    | nil => simp [permuteAt]
    | cons y ys => cases y <;> simp [permuteAt]
  · simp

theorem prevPermutation_replicate_false (m : Nat) :
    (prevPermutation (List.replicate m false)).1 = false := by
  induction m with
  | zero => rfl
  | succ m ih =>
    rw [List.replicate_succ, prevPermutation_false_cons, ih]
    rfl

theorem swapLastSmaller_replicate (m : Nat) (tl : List Bool)
    (htl : swapLastSmaller true tl = none) :
    swapLastSmaller true (List.replicate (m + 1) false ++ tl)
      = some (false, List.replicate m false ++ true :: tl) := by
  induction m with
  | zero => simp [swapLastSmaller, htl]
  | succ m ih =>
    rw [List.replicate_succ, List.cons_append, swapLastSmaller, ih]
    simp [List.replicate_succ]

theorem swapLastSmaller_trues (tl : List Bool) (h : ∀ b ∈ tl, b = true) :
    swapLastSmaller true tl = none := by
  induction tl with
  | nil => rfl
  | cons b bs ih =>
    have hb : b = true := h b (List.mem_cons_self _ _)
    rw [swapLastSmaller, ih (fun x hx => h x (List.mem_cons_of_mem _ hx)), hb]
    simp

theorem prevPermutation_one (k m : Nat) :
    prevPermutation (List.replicate k false ++ true :: List.replicate m false)
      = if 0 < m then
          (true, List.replicate (k + 1) false ++ true :: List.replicate (m - 1) false)
        else (false, (List.replicate k false ++ true :: List.replicate m false).reverse) := by
  induction k with
  | zero =>
    simp only [List.replicate_zero, List.nil_append]
    rw [prevPermutation]
    have hz := prevPermutation_replicate_false m
    rcases h : prevPermutation (List.replicate m false) with ⟨b, r⟩
    rw [h] at hz
    simp only at hz
    subst hz
    cases m with
    | zero => simp [permuteAt]
    | succ m =>
      have hs := swapLastSmaller_replicate m [] rfl
      simp only [List.append_nil] at hs
      simp only [permuteAt, List.replicate_succ] at hs ⊢
      simp [hs]
  | succ k ih =>
    rw [List.replicate_succ, List.cons_append, prevPermutation_false_cons, ih]
    by_cases hm : 0 < m
    · simp [hm, List.replicate_succ]
    · simp [hm, List.replicate_succ]

theorem prevPermutation_two (k m : Nat) :
    prevPermutation (true :: (List.replicate k false ++ true :: List.replicate m false))
      = if 0 < m then
          (true, true :: (List.replicate (k + 1) false ++ true :: List.replicate (m - 1) false))
        else if 0 < k then
          (true, false :: true :: true :: List.replicate (k - 1) false)
        else (false, [true, true]) := by
  rw [prevPermutation, prevPermutation_one]
  by_cases hm : 0 < m
  · simp [hm]
  · have hm0 : m = 0 := by omega
    subst hm0
    simp only [lt_irrefl, if_false, List.replicate_zero]
    cases k with
    | zero => simp [permuteAt]
    | succ k =>
      have hs := swapLastSmaller_replicate k [true] rfl
      simp only [permuteAt, List.replicate_succ, List.cons_append] at hs ⊢
      simp [hs]

theorem prevPermutation_lead (i : Nat) (l r : List Bool)
    (h : prevPermutation l = (true, r)) :
    prevPermutation (List.replicate i false ++ l) = (true, List.replicate i false ++ r) := by
  induction i with
  | zero => simpa using h
  | succ i ih =>
    rw [List.replicate_succ, List.cons_append, prevPermutation_false_cons, ih]
    simp

theorem prevPermutation_lead_false (i : Nat) (l : List Bool)
    (h : (prevPermutation l).1 = false) :
    (prevPermutation (List.replicate i false ++ l)).1 = false := by
  induction i with
  | zero => simpa using h
  | succ i ih =>
    rw [List.replicate_succ, List.cons_append, prevPermutation_false_cons, ih]
    simp

theorem maskIndices_replicate_false (i : Nat) (l : List Bool) (s : Nat) :
    maskIndices (List.replicate i false ++ l) s = maskIndices l (s + i) := by
  induction i generalizing s with
  | zero => simp
  | succ i ih =>
    rw [List.replicate_succ, List.cons_append, maskIndices]
    simp only [Bool.false_eq_true, if_false]
    rw [ih]
    congr 1
    omega

theorem maskIndices_mask (i k m : Nat) :
    maskIndices (List.replicate i false ++ true ::
      (List.replicate k false ++ true :: List.replicate m false)) 0 = [i, i + k + 1] := by
  rw [maskIndices_replicate_false, maskIndices]
  simp only [if_true]
  rw [maskIndices_replicate_false, maskIndices]
  simp only [if_true]
  have := maskIndices_replicate_false m [] (0 + i + 1 + k + 1)
  simp only [List.append_nil] at this
  rw [this]
  simp [maskIndices]
  omega

theorem pairsFrom_next (n i j : Nat) (h : j + 1 < n) :
    pairsFrom n i j = [i, j] :: pairsFrom n i (j + 1) := by
  obtain ⟨d, hd⟩ : ∃ d, n - j = d + 1 := ⟨n - j - 1, by omega⟩
  have hd1 : n - (j + 1) = d := by omega
  simp [pairsFrom, hd, hd1, List.range'_succ]

theorem pairsFrom_wrap (n i j : Nat) (h : j + 1 = n) (hij : i + 1 < j) :
    pairsFrom n i j = [i, j] :: pairsFrom n (i + 1) (i + 2) := by
  obtain ⟨d, hd⟩ : ∃ d, n - 1 - i = d + 1 := ⟨n - 1 - i - 1, by omega⟩
  have h1 : n - j = 1 := by omega
  have h2 : n - (i + 2) = d := by omega
  have h3 : n - 1 - (i + 1) = d := by omega
  simp [pairsFrom, hd, h1, h2, h3, List.range'_succ]

theorem pairsFrom_last (n i j : Nat) (h : j + 1 = n) (hij : i + 1 = j) :
    pairsFrom n i j = [[i, j]] := by
  have h1 : n - j = 1 := by omega
  have h2 : n - 1 - i = 1 := by omega
  have h3 : n - 1 - (i + 1) = 0 := by omega
  simp [pairsFrom, h1, h2, h3, List.range'_succ]

theorem pairsLex_eq_pairsFrom (n : Nat) (h : 2 ≤ n) : pairsLex n = pairsFrom n 0 1 := by
  obtain ⟨d, hd⟩ : ∃ d, n = d + 1 := ⟨n - 1, by omega⟩
  subst hd
  simp [pairsLex, pairsFrom, List.range_eq_range', List.range'_succ]

theorem makeCombinationsLoop_mask (fuel : Nat) :
    ∀ (i k m : Nat) (vec : List (List Nat)),
      (pairsFrom (i + k + m + 2) i (i + k + 1)).length ≤ fuel →
      makeCombinationsLoop fuel
          (List.replicate i false ++ true ::
            (List.replicate k false ++ true :: List.replicate m false)) vec
        = some (vec ++ pairsFrom (i + k + m + 2) i (i + k + 1)) := by
  induction fuel with
  | zero =>
    intro i k m vec h
    exfalso
    cases m with
    | zero =>
      cases k with
      | zero => rw [pairsFrom_last _ _ _ (by omega) (by omega)] at h; simp at h
      | succ k => rw [pairsFrom_wrap _ _ _ (by omega) (by omega)] at h; simp at h
    | succ m => rw [pairsFrom_next _ _ _ (by omega)] at h; simp at h
  | succ fuel ih =>
    intro i k m vec h
    rw [makeCombinationsLoop, maskIndices_mask]
    cases m with
    | succ m =>
      rw [pairsFrom_next _ _ _ (by omega)] at h ⊢
      have hp := prevPermutation_lead i _ _
        ((prevPermutation_two k (m + 1)).trans (if_pos (Nat.succ_pos m)))
      simp only [Nat.add_sub_cancel] at hp
      simp only [hp]
      have hn : i + k + (m + 1) + 2 = i + (k + 1) + m + 2 := by omega
      have hj : i + k + 1 + 1 = i + (k + 1) + 1 := by omega
      rw [hn, hj] at h ⊢
      rw [ih i (k + 1) m _ (by simpa using h)]
      simp
    | zero =>
      cases k with
      | succ k =>
        rw [pairsFrom_wrap _ _ _ (by omega) (by omega)] at h ⊢
        have h2 : prevPermutation
            (true :: (List.replicate (k + 1) false ++ true :: List.replicate 0 false))
            = (true, false :: true :: true :: List.replicate k false) := by
          rw [prevPermutation_two]; simp
        have hp := prevPermutation_lead i _ _ h2
        have hmask : List.replicate i false ++ false :: true :: true :: List.replicate k false
            = List.replicate (i + 1) false ++ true ::
                (List.replicate 0 false ++ true :: List.replicate k false) := by
          simp [List.replicate_succ']
        simp only [hp, hmask]
        have hn : i + (k + 1) + 0 + 2 = (i + 1) + 0 + k + 2 := by omega
        have hj : i + 2 = (i + 1) + 0 + 1 := by omega
        rw [hn, hj] at h ⊢
        rw [ih (i + 1) 0 k _ (by simpa using h)]
        simp
      | zero =>
        rw [pairsFrom_last _ _ _ (by omega) (by omega)]
        have hp := prevPermutation_lead_false i
          (true :: (List.replicate 0 false ++ true :: List.replicate 0 false))
          (by rw [prevPermutation_two]; simp)
        rcases hpp : prevPermutation (List.replicate i false ++
          true :: (List.replicate 0 false ++ true :: List.replicate 0 false)) with ⟨b, r⟩
        rw [hpp] at hp
        simp only at hp
        subst hp
        simp

theorem length_flatMap_le {α β : Type} (f : α → List β) (c : Nat) :
    ∀ l : List α, (∀ x ∈ l, (f x).length ≤ c) → (l.flatMap f).length ≤ l.length * c := by
  intro l
  induction l with
  | nil => intro _; simp
  | cons a l ih =>
    intro h
    have h1 := h a (List.mem_cons_self _ _)
    have h2 := ih (fun x hx => h x (List.mem_cons_of_mem _ hx))
    simp only [List.flatMap_cons, List.length_append, List.length_cons]
    rw [Nat.add_mul]
    omega

theorem length_pairsLex_le (n : Nat) : (pairsLex n).length ≤ n * n := by
  have := length_flatMap_le
    (fun i => (List.range' (i + 1) (n - 1 - i)).map fun j => [i, j]) n (List.range n)
    (by intro x _; simp; omega)
  simpa [pairsLex] using this

/-- For two or more items `makeCombinations` returns, and returns the pairs in
lexicographic order. -/
theorem makeCombinations_eq (n : Nat) (h : 2 ≤ n) : makeCombinations n = some (pairsLex n) := by
  obtain ⟨m, hm⟩ : ∃ m, n = m + 2 := ⟨n - 2, by omega⟩
  have hmask : resize (List.replicate 2 true) n false
      = List.replicate 0 false ++ true ::
          (List.replicate 0 false ++ true :: List.replicate m false) := by
    subst hm
    simp [resize, List.replicate_succ]
  have hlen := length_pairsLex_le n
  rw [pairsLex_eq_pairsFrom n h] at hlen ⊢
  have key := makeCombinationsLoop_mask (n * n + 1) 0 0 m []
  simp only [Nat.zero_add, List.nil_append] at key
  rw [makeCombinations, hmask]
  have hn : m + 2 = n := hm.symm
  rw [hn] at key
  simpa using key (by omega)

/-! ### Shell pairing -/

/-- C5: for shells with `uMin ≤ uMax` and `vMin ≤ vMax`, `isShellOverlapped` is true
exactly when the closed `u` intervals share a point and the closed `v` intervals
share a point, false exactly when one box lies strictly to one side of the other on
`u` or on `v`, and true for boxes that touch along an edge or at a corner. -/
theorem isShellOverlapped_iff {F : Type} [LinearOrder F] (shellA shellB : UvShell F)
    (hAu : shellA.uMin ≤ shellA.uMax) (hAv : shellA.vMin ≤ shellA.vMax)
    (hBu : shellB.uMin ≤ shellB.uMax) (hBv : shellB.vMin ≤ shellB.vMax) :
    (isShellOverlapped shellA shellB = true ↔
      (∃ x, shellA.uMin ≤ x ∧ x ≤ shellA.uMax ∧ shellB.uMin ≤ x ∧ x ≤ shellB.uMax) ∧
      (∃ y, shellA.vMin ≤ y ∧ y ≤ shellA.vMax ∧ shellB.vMin ≤ y ∧ y ≤ shellB.vMax)) ∧
    (isShellOverlapped shellA shellB = false ↔
      (shellA.uMax < shellB.uMin ∨ shellB.uMax < shellA.uMin ∨
        shellA.vMax < shellB.vMin ∨ shellB.vMax < shellA.vMin)) ∧
    (shellA.uMax = shellB.uMin → shellB.vMin ≤ shellA.vMax → shellA.vMin ≤ shellB.vMax →
      isShellOverlapped shellA shellB = true) ∧
    (shellA.uMax = shellB.uMin → shellA.vMax = shellB.vMin →
      isShellOverlapped shellA shellB = true) := by
  have hfalse : isShellOverlapped shellA shellB = false ↔
      (shellA.uMax < shellB.uMin ∨ shellB.uMax < shellA.uMin ∨
        shellA.vMax < shellB.vMin ∨ shellB.vMax < shellA.vMin) := by
    unfold isShellOverlapped
    split_ifs with h1 h2 h3 h4 <;> simp_all [gt_iff_lt]
  have htrue : isShellOverlapped shellA shellB = true ↔
      ¬ (shellA.uMax < shellB.uMin ∨ shellB.uMax < shellA.uMin ∨
        shellA.vMax < shellB.vMin ∨ shellB.vMax < shellA.vMin) := by
    rw [← hfalse]; simp
  refine ⟨?_, hfalse, ?_, ?_⟩
  · rw [htrue]
    simp only [not_or, not_lt]
    constructor
    · rintro ⟨h1, h2, h3, h4⟩
      refine ⟨⟨max shellA.uMin shellB.uMin, le_max_left _ _, max_le hAu h1, le_max_right _ _,
        max_le h2 hBu⟩, ⟨max shellA.vMin shellB.vMin, le_max_left _ _, max_le hAv h3,
        le_max_right _ _, max_le h4 hBv⟩⟩
    · rintro ⟨⟨x, hx1, hx2, hx3, hx4⟩, ⟨y, hy1, hy2, hy3, hy4⟩⟩
      exact ⟨hx3.trans hx2, hx1.trans hx4, hy3.trans hy2, hy1.trans hy4⟩
  · intro h1 h2 h3
    rw [htrue]
    simp only [not_or, not_lt]
    exact ⟨h1.ge, hAu.trans (h1.le.trans hBu), h2, h3⟩
  · intro h1 h2
    rw [htrue]
    simp only [not_or, not_lt]
    exact ⟨h1.ge, hAu.trans (h1.le.trans hBu), h2.ge, hAv.trans (h2.le.trans hBv)⟩

theorem isShellOverlapped_comm {F : Type} [LinearOrder F] (shellA shellB : UvShell F) :
    isShellOverlapped shellA shellB = isShellOverlapped shellB shellA := by
  unfold isShellOverlapped
  split_ifs <;> simp_all [gt_iff_lt]

theorem overlapsAt_comm {F : Type} [LinearOrder F] (shells : List (UvShell F)) (i j : Nat) :
    overlapsAt shells i j = overlapsAt shells j i := by
  unfold overlapsAt
  cases shells[i]? <;> cases shells[j]? <;> simp [isShellOverlapped_comm]

theorem pairsLex_eq_map (n : Nat) :
    pairsLex n = (indexPairs n).map fun pr => [pr.1, pr.2] := by
  simp [pairsLex, indexPairs, List.map_flatMap, Function.comp_def]

theorem mem_indexPairs (n i j : Nat) : (i, j) ∈ indexPairs n ↔ i < j ∧ j < n := by
  simp only [indexPairs, List.mem_flatMap, List.mem_range, List.mem_map, List.mem_range'_1,
    Prod.mk.injEq]
  constructor
  · rintro ⟨a, ha, b, hb, rfl, rfl⟩
    omega
  · rintro ⟨h1, h2⟩
    exact ⟨i, by omega, j, by omega, rfl, rfl⟩

theorem nodup_indexPairs (n : Nat) : (indexPairs n).Nodup := by
  unfold indexPairs
  rw [List.nodup_flatMap]
  refine ⟨?_, ?_⟩
  · intro i _
    exact (List.nodup_range' _ _).map (fun a b h => by simpa using h)
  · refine (List.nodup_range n).pairwise_of_forall_ne ?_
    intro a _ b _ hab
    intro x hx1 hx2
    simp only [List.mem_map] at hx1 hx2
    obtain ⟨_, _, rfl⟩ := hx1
    obtain ⟨_, _, h⟩ := hx2
    simp only [Prod.mk.injEq] at h
    exact hab h.1.symm

theorem shellIndex_of_getElem? {F : Type} (shells : List (UvShell F))
    (hidx : shells.map (fun shell => shell.shellIndex) = List.range shells.length)
    (i : Nat) (shell : UvShell F) (h : shells[i]? = some shell) : shell.shellIndex = i := by
  have h1 : (shells.map (fun shell => shell.shellIndex))[i]? = some shell.shellIndex := by
    simp [h]
  rw [hidx] at h1
  have hlt : i < shells.length := by
    by_contra hc
    rw [List.getElem?_eq_none (by simpa using hc)] at h
    cases h
  rw [List.getElem?_range hlt] at h1
  exact (Option.some.inj h1).symm

theorem pairLoop_eq {F : Type} [LinearOrder F] (p : Prims F) (shells : List (UvShell F))
    (hidx : shells.map (fun shell => shell.shellIndex) = List.range shells.length)
    (cs : List (Nat × Nat)) :
    ∀ (acc : List (List (UvEdge F))) (idx : List Nat),
      (∀ pr ∈ cs, pr.1 < shells.length ∧ pr.2 < shells.length) → idx.Nodup →
      pairLoop p shells (cs.map fun pr => [pr.1, pr.2]) (acc, idx)
        = some (acc ++ cs.filterMap (fun pr =>
            match shells[pr.1]?, shells[pr.2]? with
            | some shellA, some shellB =>
              if isShellOverlapped shellA shellB then some (combinedEdges p shellA shellB)
              else none
            | _, _ => none),
          idx.filter fun k => !(cs.any fun pr =>
            overlapsAt shells pr.1 pr.2 && (decide (k = pr.1) || decide (k = pr.2)))) := by
  induction cs with
  | nil => intro acc idx _ _; simp [pairLoop]
  | cons c cs ih =>
    intro acc idx hcs hnd
    obtain ⟨h1, h2⟩ := hcs c (List.mem_cons_self _ _)
    have hcs1 : ∀ pr ∈ cs, pr.1 < shells.length ∧ pr.2 < shells.length :=
      fun pr hpr => hcs pr (List.mem_cons_of_mem _ hpr)
    have hA : shells[c.1]? = some shells[c.1] := List.getElem?_eq_getElem h1
    have hB : shells[c.2]? = some shells[c.2] := List.getElem?_eq_getElem h2
    have hiA := shellIndex_of_getElem? shells hidx _ _ hA
    have hiB := shellIndex_of_getElem? shells hidx _ _ hB
    simp only [List.map_cons, pairLoop, List.getElem?_cons_zero, List.getElem?_cons_succ,
      Option.some_bind, hA, hB, List.filterMap_cons, List.any_cons, overlapsAt]
    by_cases hov : isShellOverlapped shells[c.1] shells[c.2] = true
    · simp only [hov, if_true, Bool.true_and]
      rw [ih _ _ hcs1 ((hnd.erase _).erase _), hiA, hiB]
      congr 1
      simp only [List.append_assoc, List.singleton_append, Prod.mk.injEq, true_and]
      rw [(hnd.erase _).erase_eq_filter, hnd.erase_eq_filter, List.filter_filter,
        List.filter_filter]
      congr 1
      funext k
      have e1 : (k != c.1) = !decide (k = c.1) := by
        by_cases hk1 : k = c.1 <;> simp [hk1]
      have e2 : (k != c.2) = !decide (k = c.2) := by
        by_cases hk2 : k = c.2 <;> simp [hk2]
      rw [e1, e2]
      by_cases hk1 : k = c.1 <;> by_cases hk2 : k = c.2 <;> simp [hk1, hk2, overlapsAt]
    · simp only [hov, if_false, Bool.false_and, Bool.false_or]
      rw [ih _ _ hcs1 hnd]
      simp [overlapsAt]

theorem singleSets_eq {F : Type} (shells : List (UvShell F)) (idx : List Nat)
    (h : ∀ k ∈ idx, k < shells.length) :
    singleSets shells idx
      = some (idx.filterMap fun k => (shells[k]?).map fun shell => shell.edgeSet) := by
  induction idx with
  | nil => rfl
  | cons k idx ih =>
    have hk := h k (List.mem_cons_self _ _)
    rw [singleSets, ih (fun j hj => h j (List.mem_cons_of_mem _ hj)),
      List.getElem?_eq_getElem hk]
    simp [List.getElem?_eq_getElem hk]

theorem any_indexPairs_eq_overlapsOther {F : Type} [LinearOrder F]
    (shells : List (UvShell F)) (k : Nat) :
    ((indexPairs shells.length).any fun pr =>
        overlapsAt shells pr.1 pr.2 && (decide (k = pr.1) || decide (k = pr.2)))
      = overlapsOther shells k := by
  rw [Bool.eq_iff_iff]
  simp only [overlapsOther, List.any_eq_true, Bool.and_eq_true, Bool.or_eq_true,
    decide_eq_true_eq, List.mem_range, Prod.exists, mem_indexPairs]
  constructor
  · rintro ⟨i, j, ⟨hij, hj⟩, hov, hk | hk⟩
    · exact ⟨j, hj, by omega, by rw [hk]; exact hov⟩
    · exact ⟨i, by omega, by omega, by rw [hk, overlapsAt_comm]; exact hov⟩
  · rintro ⟨j, hj, hne, hov⟩
    have hk : k < shells.length := by
      by_contra hc
      simp [overlapsAt, List.getElem?_eq_none (show shells.length ≤ k by omega)] at hov
    rcases Nat.lt_or_gt_of_ne hne with hlt | hgt
    · exact ⟨j, k, ⟨hlt, hk⟩, by rw [overlapsAt_comm]; exact hov, Or.inr rfl⟩
    · exact ⟨k, j, ⟨hgt, hj⟩, hov, Or.inl rfl⟩

/-- With two or more shells indexed by position, the edge sets handed to `check` are
the merged sets of the overlapping pairs followed by the sets of the shells that
overlap no other shell. -/
theorem checkedEdgeSets_eq {F : Type} [LinearOrder F] (p : Prims F)
    (shells : List (UvShell F)) (hn : 2 ≤ shells.length)
    (hidx : shells.map (fun shell => shell.shellIndex) = List.range shells.length) :
    checkedEdgeSets p shells = some (mergedSets p shells ++ unmergedSets shells) := by
  unfold checkedEdgeSets
  rw [if_neg (by omega), makeCombinations_eq _ hn, pairsLex_eq_map]
  simp only [Option.some_bind]
  rw [pairLoop_eq p shells hidx _ _ _ (fun pr hpr => by
        have := (mem_indexPairs shells.length pr.1 pr.2).1 hpr
        omega) (List.nodup_range _)]
  simp only [Option.some_bind, List.nil_append]
  rw [singleSets_eq _ _ (fun k hk => by
        have := List.mem_of_mem_filter hk
        simpa using this)]
  simp only [Option.map_some', mergedSets, unmergedSets, Option.some.injEq]
  congr 1
  rw [List.filterMap_filter]
  congr 1
  funext k
  rw [any_indexPairs_eq_overlapsOther]
  cases overlapsOther shells k <;> simp

/-! ### The union of two edge sets -/

theorem forall₂_filterMap {α β : Type} (c : α → Bool) (f : α → Option β) (R : α → β → Prop)
    (h : ∀ a, c a = true → ∃ b, f a = some b ∧ R a b) (h0 : ∀ a, c a = false → f a = none) :
    ∀ l : List α, List.Forall₂ R (l.filter c) (l.filterMap f) := by
  intro l
  induction l with
  | nil => exact List.Forall₂.nil
  | cons a l ih =>
    cases hc : c a
    · rw [List.filter_cons_of_neg (by simp [hc]), List.filterMap_cons_none (h0 a hc)]
      exact ih
    · obtain ⟨b, hb, hR⟩ := h a hc
      rw [List.filter_cons_of_pos hc, List.filterMap_cons_some hb]
      exact List.Forall₂.cons hR ih

theorem mergedSets_forall₂ {F : Type} [LinearOrder F] (p : Prims F)
    (shells : List (UvShell F)) :
    List.Forall₂ (fun pr m => ∃ shellA shellB, shells[pr.1]? = some shellA ∧
        shells[pr.2]? = some shellB ∧ m = combinedEdges p shellA shellB)
      (overlappingPairs shells) (mergedSets p shells) := by
  unfold overlappingPairs mergedSets
  apply forall₂_filterMap
  · intro pr h
    unfold overlapsAt at h
    cases hA : shells[pr.1]? <;> cases hB : shells[pr.2]? <;> simp [hA, hB] at h ⊢
    exact h
  · intro pr h
    unfold overlapsAt at h
    cases hA : shells[pr.1]? <;> cases hB : shells[pr.2]? <;> simp [hA, hB] at h ⊢
    exact h

theorem unmergedSets_forall₂ {F : Type} [LinearOrder F] (shells : List (UvShell F)) :
    List.Forall₂ (fun k s => ∃ shell, shells[k]? = some shell ∧ s = shell.edgeSet)
      (isolatedShells shells) (unmergedSets shells) := by
  unfold isolatedShells unmergedSets
  have key : ∀ l : List Nat, (∀ k ∈ l, k < shells.length) →
      List.Forall₂ (fun k s => ∃ shell, shells[k]? = some shell ∧ s = shell.edgeSet)
        (l.filter fun k => !overlapsOther shells k)
        (l.filterMap fun k =>
          if overlapsOther shells k then none
          else (shells[k]?).map fun shell => shell.edgeSet) := by
    intro l
    induction l with
    | nil => intro _; exact List.Forall₂.nil
    | cons a l ih =>
      intro h
      have ha := h a (List.mem_cons_self _ _)
      have ih1 := ih (fun k hk => h k (List.mem_cons_of_mem _ hk))
      cases hc : overlapsOther shells a
      · rw [List.filter_cons_of_pos (by simp [hc]),
          List.filterMap_cons_some (b := shells[a].edgeSet)
            (by simp [hc, List.getElem?_eq_getElem ha])]
        exact List.Forall₂.cons ⟨shells[a], List.getElem?_eq_getElem ha, rfl⟩ ih1
      · rw [List.filter_cons_of_neg (by simp [hc]), List.filterMap_cons_none (by simp [hc])]
        exact ih1
  exact key _ (fun k hk => List.mem_range.1 hk)

/-- C8: with two or more shells indexed by position, the edge sets handed to `check`
end with the un-merged sets, which are the edge sets of exactly the shells whose box
overlaps the box of no shell at another position; so the number of edge sets is the
number of overlapping pairs plus the number of those shells. -/
theorem shellPairing_unmerged {F : Type} [LinearOrder F] (p : Prims F)
    (shells : List (UvShell F)) (hn : 2 ≤ shells.length)
    (hidx : shells.map (fun shell => shell.shellIndex) = List.range shells.length) :
    checkedEdgeSets p shells = some (mergedSets p shells ++ unmergedSets shells) ∧
    List.Forall₂ (fun k s => ∃ shell, shells[k]? = some shell ∧ s = shell.edgeSet)
      (isolatedShells shells) (unmergedSets shells) ∧
    (isolatedShells shells).Nodup ∧
    (∀ k, k ∈ isolatedShells shells ↔
      k < shells.length ∧ ∀ j shellA shellB, j ≠ k → shells[k]? = some shellA →
        shells[j]? = some shellB → isShellOverlapped shellA shellB = false) ∧
    (mergedSets p shells).length = (overlappingPairs shells).length ∧
    (∀ sets, checkedEdgeSets p shells = some sets →
      sets.length = (overlappingPairs shells).length + (isolatedShells shells).length) := by
  have hmerged := (mergedSets_forall₂ p shells).length_eq
  have hunmerged := (unmergedSets_forall₂ shells).length_eq
  have heq := checkedEdgeSets_eq p shells hn hidx
  refine ⟨heq, unmergedSets_forall₂ shells, (List.nodup_range _).filter _, ?_,
    hmerged.symm, ?_⟩
  · intro k
    simp only [isolatedShells, List.mem_filter, List.mem_range, overlapsOther,
      Bool.not_eq_true', List.any_eq_false, Bool.and_eq_true, decide_eq_true_eq, not_and,
      Bool.not_eq_true]
    constructor
    · rintro ⟨hk, h⟩
      refine ⟨hk, ?_⟩
      intro j shellA shellB hjk hA hB
      have hj : j < shells.length := by
        by_contra hc
        rw [List.getElem?_eq_none (by omega)] at hB
        cases hB
      have := h j hj hjk
      simpa [overlapsAt, hA, hB] using this
    · rintro ⟨hk, h⟩
      refine ⟨hk, ?_⟩
      intro j hj hjk
      have := h j shells[k] shells[j] hjk (List.getElem?_eq_getElem hk)
        (List.getElem?_eq_getElem hj)
      simpa [overlapsAt, List.getElem?_eq_getElem hk, List.getElem?_eq_getElem hj] using this
  · intro sets hsets
    rw [heq] at hsets
    cases hsets
    rw [List.length_append, hmerged, hunmerged]

/-! ### The theorems at concrete inputs -/

theorem samplePrims_eventLt_asymm (a b : Event Int)
    (h : samplePrims.eventLt a b = true) : samplePrims.eventLt b a = false := by
  simp only [samplePrims, decide_eq_true_eq, decide_eq_false_iff_not] at h ⊢
  omega

theorem samplePrims_eventLt_neg (a b c : Event Int)
    (h : samplePrims.eventLt a c = true) :
    samplePrims.eventLt a b = true ∨ samplePrims.eventLt b c = true := by
  simp only [samplePrims, decide_eq_true_eq] at h ⊢
  omega

theorem samplePrims_edgeEq_of_geom (a b : UvEdge Int) (h : a.geom = b.geom) :
    samplePrims.edgeEq a b = true := by
  simp only [UvEdge.geom, Prod.mk.injEq] at h
  simp [samplePrims, h.2.2.1]

theorem samplePrims_hit_of_geom (a b x y : UvEdge Int) (ha : a.geom = x.geom)
    (hb : b.geom = y.geom) : samplePrims.isIntersected a b = samplePrims.isIntersected x y := by
  simp only [UvEdge.geom, Prod.mk.injEq] at ha hb
  simp [samplePrims, sampleIsIntersected, ha.1, ha.2.1, hb.1, hb.2.1]

theorem samplePrims_hit_XY (a b : UvEdge Int)
    (h : (a.geom = edgeX.geom ∧ b.geom = edgeY.geom) ∨
      (a.geom = edgeY.geom ∧ b.geom = edgeX.geom)) :
    (samplePrims.isIntersected a b).hit = true := by
  rcases h with ⟨ha, hb⟩ | ⟨ha, hb⟩
  · rw [samplePrims_hit_of_geom a b _ _ ha hb]; decide
  · rw [samplePrims_hit_of_geom a b _ _ ha hb]; decide

theorem check_sound_witness :
    ([edgeX, edgeY].map UvEdge.geom).Nodup ∧
    (3 : Int) ∈ (check samplePrims 5 [edgeX, edgeY] ∅).state.resultSet ∧
    ∃ a b : UvEdge Int, a.geom ∈ [edgeX, edgeY].map UvEdge.geom ∧
      b.geom ∈ [edgeX, edgeY].map UvEdge.geom ∧ a.geom ≠ b.geom ∧
      (samplePrims.isIntersected a b).hit = true ∧
      ((3 : Int) = a.beginIndex ∨ (3 : Int) = a.endIndex ∨ (3 : Int) = b.beginIndex ∨
        (3 : Int) = b.endIndex) :=
  ⟨by decide, by decide, check_sound samplePrims [edgeX, edgeY] (by decide) 5 3 (by decide)⟩

theorem check_crossing_pair_witness :
    (∀ ev ∈ (stdSort samplePrims.eventLt (initEvents [edgeX, edgeY] 0)).take 2,
      ev.status = "begin") ∧
    ∃ s, check samplePrims 5 [edgeX, edgeY] {7} = .finished .kSuccess s ∧
      edgeX.beginIndex ∈ s.resultSet ∧ edgeX.endIndex ∈ s.resultSet ∧
      edgeY.beginIndex ∈ s.resultSet ∧ edgeY.endIndex ∈ s.resultSet :=
  ⟨by decide,
    check_crossing_pair samplePrims edgeX edgeY samplePrims_edgeEq_of_geom samplePrims_hit_XY
      (by decide) 0 {7}⟩

theorem checkEdgesAndCreateEvent_hit_witness :
    (samplePrims.isIntersected edgeX edgeY).hit = true ∧
    edgeX.beginIndex ∈ (checkEdgesAndCreateEvent samplePrims edgeX edgeY ⟨[], [], ∅⟩).resultSet ∧
    edgeX.endIndex ∈ (checkEdgesAndCreateEvent samplePrims edgeX edgeY ⟨[], [], ∅⟩).resultSet ∧
    edgeY.beginIndex ∈ (checkEdgesAndCreateEvent samplePrims edgeX edgeY ⟨[], [], ∅⟩).resultSet ∧
    edgeY.endIndex ∈ (checkEdgesAndCreateEvent samplePrims edgeX edgeY ⟨[], [], ∅⟩).resultSet :=
  ⟨by decide,
    (checkEdgesAndCreateEvent_hit samplePrims samplePrims_eventLt_asymm samplePrims_eventLt_neg
      edgeX edgeY ⟨[], [], ∅⟩ (by decide)).1⟩

theorem isShellOverlapped_iff_witness :
    (sampleShell 0 0 2 0 2 []).uMin ≤ (sampleShell 0 0 2 0 2 []).uMax ∧
    (sampleShell 0 0 2 0 2 []).vMin ≤ (sampleShell 0 0 2 0 2 []).vMax ∧
    (sampleShell 1 2 3 2 3 []).uMin ≤ (sampleShell 1 2 3 2 3 []).uMax ∧
    (sampleShell 1 2 3 2 3 []).vMin ≤ (sampleShell 1 2 3 2 3 []).vMax ∧
    isShellOverlapped (sampleShell 0 0 2 0 2 []) (sampleShell 1 2 3 2 3 []) = true :=
  ⟨by decide, by decide, by decide, by decide,
    (isShellOverlapped_iff (sampleShell 0 0 2 0 2 []) (sampleShell 1 2 3 2 3 [])
      (by decide) (by decide) (by decide) (by decide)).2.2.2 rfl rfl⟩

theorem shellPairing_unmerged_witness :
    2 ≤ mixedShells.length ∧
    mixedShells.map (fun shell => shell.shellIndex) = List.range mixedShells.length ∧
    checkedEdgeSets samplePrims mixedShells
      = some (mergedSets samplePrims mixedShells ++ unmergedSets mixedShells) ∧
    isolatedShells mixedShells = [2] :=
  ⟨by decide, by decide,
    (shellPairing_unmerged samplePrims mixedShells (by decide) (by decide)).1, by decide⟩

/-! ### The three handlers, case by case -/

theorem stdFind_lt {α : Type} (eq : α → α → Bool) (x : α) :
    ∀ (l : List α) (k : Nat), stdFind eq l x = some k → k < l.length := by
  intro l
  induction l with
  | nil => intro k h; simp [stdFind] at h
  | cons y ys ih =>
    intro k h
    rw [stdFind] at h
    split_ifs at h
    · cases h; simp
    · simp only [Option.map_eq_some'] at h
      obtain ⟨j, hj, rfl⟩ := h
      have := ih j hj
      simp only [List.length_cons]
      omega

/-- C16: `doCross` leaves the status structure as it is, whatever the event, and on
a status of two or fewer entries it changes nothing at all. -/
theorem doCross_frame {F : Type} (p : Prims F) (ev : Event F) (s : SweepState F) :
    (∀ r, doCross p ev s = some r → r.2.statusQueue = s.statusQueue) ∧
    (s.statusQueue.length ≤ 2 → doCross p ev s = some (false, s)) := by
  refine ⟨fun r h => (doCross_checked p ev s r h).statusQueue_eq, fun h => ?_⟩
  unfold doCross
  rw [if_pos h]

/-- C17: `doEnd` on an edge not found changes nothing; on an edge found at position
`k` it removes the entry at `k` from the status, keeping the others in order, after
one call of `checkEdgesAndCreateEvent` on the entries at `k - 1` and `k + 1` when
the status has more than two entries and `0 < k < size - 1`, and after no call
otherwise. -/
theorem doEnd_cases {F : Type} (p : Prims F) (ev : Event F) (s : SweepState F) :
    (stdFind p.edgeEq s.statusQueue ev.edge = none → doEnd p ev s = some (false, s)) ∧
    (∀ k, stdFind p.edgeEq s.statusQueue ev.edge = some k →
      k < s.statusQueue.length ∧
      ((2 < s.statusQueue.length ∧ 0 < k ∧ k < s.statusQueue.length - 1) →
        ∃ previousEdge nextEdge, s.statusQueue[k - 1]? = some previousEdge ∧
          s.statusQueue[k + 1]? = some nextEdge ∧
          doEnd p ev s = some (true,
            { checkEdgesAndCreateEvent p previousEdge nextEdge s with
              statusQueue := s.statusQueue.eraseIdx k })) ∧
      (¬ (2 < s.statusQueue.length ∧ 0 < k ∧ k < s.statusQueue.length - 1) →
        doEnd p ev s = some (true, { s with statusQueue := s.statusQueue.eraseIdx k }))) := by
  refine ⟨fun h => ?_, fun k h => ?_⟩
  · unfold doEnd
    simp [h]
  · have hk := stdFind_lt p.edgeEq ev.edge _ k h
    refine ⟨hk, fun hc => ?_, fun hc => ?_⟩
    · refine ⟨s.statusQueue[k - 1], s.statusQueue[k + 1],
        List.getElem?_eq_getElem (by omega), List.getElem?_eq_getElem (by omega), ?_⟩
      unfold doEnd
      simp only [h]
      rw [if_neg (by omega), if_neg (by omega), if_neg (by omega), if_neg (by omega)]
      simp [List.getElem?_eq_getElem (show k + 1 < s.statusQueue.length by omega),
        List.getElem?_eq_getElem (show k - 1 < s.statusQueue.length by omega)]
    · unfold doEnd
      simp only [h]
      rw [if_neg (by omega)]
      by_cases h2 : s.statusQueue.length ≤ 2
      · simp [h2]
      · by_cases h0 : k = 0
        · simp [h2, h0]
        · by_cases h1 : k = s.statusQueue.length - 1
          · simp [h2, h0, h1]
          · exfalso; exact hc ⟨by omega, by omega, by omega⟩

/-- C18: `doBegin` on a status that has two or more entries once the new edge is
appended: the status becomes the entries with their sweep coordinate set at the
event's `v`, sorted by `UvEdgeComparator`; with the new edge found at position `k`,
`checkEdgesAndCreateEvent` is called on it and the entry at position 1 when `k = 0`,
on it and the entry at `k - 1` when `k` is the last position, and otherwise on it and
the entry at `k + 1` and then on it and the entry at `k - 1`; nothing else is
called. -/
theorem doBegin_cases {F : Type} (p : Prims F) (ev : Event F) (s : SweepState F)
    (hne : s.statusQueue ≠ []) :
    (statusAfterBegin p ev s).Perm
      ((s.statusQueue ++ [ev.edge]).map fun e => setCrossingPointX p e ev.v) ∧
    ((∀ a b, p.edgeCmp a b = true → p.edgeCmp b a = false) →
      (∀ a b c, p.edgeCmp a c = true → p.edgeCmp a b = true ∨ p.edgeCmp b c = true) →
      List.Sorted (fun a b => p.edgeCmp b a = false) (statusAfterBegin p ev s)) ∧
    (stdFind p.edgeEq (statusAfterBegin p ev s) ev.edge = none →
      doBegin p ev s = some (false, { s with statusQueue := statusAfterBegin p ev s })) ∧
    (∀ k, stdFind p.edgeEq (statusAfterBegin p ev s) ev.edge = some k →
      ∃ currentEdge, (statusAfterBegin p ev s)[k]? = some currentEdge ∧
        (k = 0 → ∃ nextEdge, (statusAfterBegin p ev s)[1]? = some nextEdge ∧
          doBegin p ev s = some (true,
            checkEdgesAndCreateEvent p currentEdge nextEdge
              { s with statusQueue := statusAfterBegin p ev s })) ∧
        (k ≠ 0 → k = (statusAfterBegin p ev s).length - 1 →
          ∃ previousEdge, (statusAfterBegin p ev s)[k - 1]? = some previousEdge ∧
          doBegin p ev s = some (true,
            checkEdgesAndCreateEvent p currentEdge previousEdge
              { s with statusQueue := statusAfterBegin p ev s })) ∧
        (k ≠ 0 → k ≠ (statusAfterBegin p ev s).length - 1 →
          ∃ nextEdge previousEdge, (statusAfterBegin p ev s)[k + 1]? = some nextEdge ∧
          (statusAfterBegin p ev s)[k - 1]? = some previousEdge ∧
          doBegin p ev s = some (true,
            checkEdgesAndCreateEvent p currentEdge previousEdge
              (checkEdgesAndCreateEvent p currentEdge nextEdge
                { s with statusQueue := statusAfterBegin p ev s })))) := by
  have hlen : (statusAfterBegin p ev s).length = s.statusQueue.length + 1 := by
    unfold statusAfterBegin
    rw [(stdSort_perm _ _).length_eq]; simp
  have hpos : 0 < s.statusQueue.length := List.length_pos.2 hne
  have hnum : ¬ (s.statusQueue ++ [ev.edge]).length = 1 := by
    simp only [List.length_append, List.length_singleton]; omega
  have hdo : doBegin p ev s =
      match stdFind p.edgeEq (statusAfterBegin p ev s) ev.edge with
      | none => some (false, { s with statusQueue := statusAfterBegin p ev s })
      | some index =>
        ((statusAfterBegin p ev s)[index]?).bind fun currentEdge =>
          if index = 0 then
            ((statusAfterBegin p ev s)[index + 1]?).bind fun nextEdge =>
              some (true, checkEdgesAndCreateEvent p currentEdge nextEdge
                { s with statusQueue := statusAfterBegin p ev s })
          else if index = s.statusQueue.length then
            ((statusAfterBegin p ev s)[index - 1]?).bind fun previousEdge =>
              some (true, checkEdgesAndCreateEvent p currentEdge previousEdge
                { s with statusQueue := statusAfterBegin p ev s })
          else
            ((statusAfterBegin p ev s)[index + 1]?).bind fun nextEdge =>
            ((statusAfterBegin p ev s)[index - 1]?).bind fun previousEdge =>
              some (true, checkEdgesAndCreateEvent p currentEdge previousEdge
                (checkEdgesAndCreateEvent p currentEdge nextEdge
                  { s with statusQueue := statusAfterBegin p ev s })) := by
    unfold doBegin statusAfterBegin
    simp only [List.length_append, List.length_singleton, Nat.add_sub_cancel]
    rw [if_neg (by omega)]
  refine ⟨stdSort_perm _ _, fun h1 h2 => stdSort_sorted _ h1 h2 _, fun h => ?_, fun k h => ?_⟩
  · rw [hdo, h]
  · have hk := stdFind_lt p.edgeEq ev.edge _ k h
    rw [hdo, h]
    refine ⟨_, List.getElem?_eq_getElem hk, fun h0 => ?_, fun h0 h1 => ?_,
      fun h0 h1 => ?_⟩
    · refine ⟨_, List.getElem?_eq_getElem (by omega), ?_⟩
      subst h0
      simp [List.getElem?_eq_getElem hk,
        List.getElem?_eq_getElem (show 1 < (statusAfterBegin p ev s).length by omega)]
    · refine ⟨_, List.getElem?_eq_getElem (by omega), ?_⟩
      have h1' : k = s.statusQueue.length := by omega
      simp [List.getElem?_eq_getElem hk, h0, ← h1',
        List.getElem?_eq_getElem (show k - 1 < (statusAfterBegin p ev s).length by omega)]
    · refine ⟨_, _, List.getElem?_eq_getElem (by omega),
        List.getElem?_eq_getElem (by omega), ?_⟩
      have h1' : ¬ k = s.statusQueue.length := by omega
      simp [List.getElem?_eq_getElem hk, h0, h1',
        List.getElem?_eq_getElem (show k - 1 < (statusAfterBegin p ev s).length by omega),
        List.getElem?_eq_getElem (show k + 1 < (statusAfterBegin p ev s).length by omega)]

/-! ### The pairs of `makeCombinations` -/

theorem length_rows (m : Nat) :
    ∀ s : Nat, ((List.range' s m).flatMap fun i =>
      (List.range' (i + 1) (s + m - 1 - i)).map fun j => [i, j]).length * 2
        = m * (m - 1) := by
  induction m with
  | zero => intro s; simp
  | succ m ih =>
    intro s
    have h := ih (s + 1)
    have e : ∀ i, (s + 1) + m - 1 - i = s + (m + 1) - 1 - i := by intro i; omega
    simp only [e] at h
    simp only [List.range'_succ, List.flatMap_cons, List.length_append, List.length_map,
      List.length_range', Nat.add_sub_cancel]
    rw [Nat.add_mul, h]
    have e2 : s + (m + 1) - 1 - s = m := by omega
    rw [e2]
    cases m with
    | zero => simp
    | succ k => simp only [Nat.add_sub_cancel]; ring

/-- C15: for `N ≥ 2`, `makeCombinations` returns, and its output is the list of the
`N (N - 1) / 2` two-element lists `[i, j]` with `i < j < N`, each once, in
lexicographic order; so every combination has an element 0 and an element 1. -/
theorem makeCombinations_pairs (N : Nat) (hN : 2 ≤ N) :
    makeCombinations N = some (pairsLex N) ∧
    (pairsLex N).length = N * (N - 1) / 2 ∧
    (pairsLex N).Nodup ∧
    (∀ comb, comb ∈ pairsLex N ↔ ∃ i j, i < j ∧ j < N ∧ comb = [i, j]) ∧
    List.Pairwise (fun a b => ∃ i j k l, a = [i, j] ∧ b = [k, l] ∧
      (i < k ∨ (i = k ∧ j < l))) (pairsLex N) ∧
    (∀ comb ∈ pairsLex N, ∃ i j, comb[0]? = some i ∧ comb[1]? = some j) := by
  have hmem : ∀ comb, comb ∈ pairsLex N ↔ ∃ i j, i < j ∧ j < N ∧ comb = [i, j] := by
    intro comb
    rw [pairsLex_eq_map]
    simp only [List.mem_map, Prod.exists]
    constructor
    · rintro ⟨i, j, hij, rfl⟩
      exact ⟨i, j, ((mem_indexPairs N i j).1 hij).1, ((mem_indexPairs N i j).1 hij).2, rfl⟩
    · rintro ⟨i, j, h1, h2, rfl⟩
      exact ⟨i, j, (mem_indexPairs N i j).2 ⟨h1, h2⟩, rfl⟩
  refine ⟨makeCombinations_eq N hN, ?_, ?_, hmem, ?_, ?_⟩
  · have h := length_rows N 0
    simp only [Nat.zero_add] at h
    have h2 : (pairsLex N).length * 2 = N * (N - 1) := by
      rw [← h, pairsLex, List.range_eq_range']
    omega
  · rw [pairsLex_eq_map]
    refine (nodup_indexPairs N).map ?_
    intro a b h
    simp only [List.cons.injEq, and_true] at h
    exact Prod.ext h.1 h.2
  · unfold pairsLex
    rw [List.pairwise_flatMap]
    refine ⟨?_, ?_⟩
    · intro i _
      rw [List.pairwise_map]
      refine (List.pairwise_lt_range' (i + 1) (N - 1 - i)).imp ?_
      intro a b hab
      exact ⟨i, a, i, b, rfl, rfl, Or.inr ⟨rfl, hab⟩⟩
    · refine (List.pairwise_lt_range N).imp ?_
      intro a b hab x hx y hy
      simp only [List.mem_map] at hx hy
      obtain ⟨j, _, rfl⟩ := hx
      obtain ⟨l, _, rfl⟩ := hy
      exact ⟨a, j, b, l, rfl, rfl, Or.inl hab⟩
  · intro comb hc
    obtain ⟨i, j, _, _, rfl⟩ := (hmem comb).1 hc
    exact ⟨i, j, rfl, rfl⟩

theorem makeCombinations_pairs_witness :
    2 ≤ 4 ∧ makeCombinations 4 = some [[0, 1], [0, 2], [0, 3], [1, 2], [1, 3], [2, 3]] ∧
    (pairsLex 4).length = 4 * (4 - 1) / 2 :=
  ⟨by decide, (makeCombinations_pairs 4 (by decide)).1.trans (by decide),
    (makeCombinations_pairs 4 (by decide)).2.1⟩

/-- C19, evaluated: on the three-entry status of the three pairwise crossing edges,
`doCross` for the `intersect` event of the first and the third edge, which sit at
position 0 and at the last position, reads `statusQueue[3]`: its result is `none`.
And so it is whenever the two edges of the event are found at position 0 and at the
last position of a status of more than two entries. -/
theorem doCross_first_and_last :
    (stdFind samplePrims.edgeEq triangleEdges (sampleEdge 101 0 0 0 1 8 8) = some 0 ∧
      stdFind samplePrims.edgeEq triangleEdges (sampleEdge 145 4 8 0 5 0 8) = some 2 ∧
      (doCross samplePrims
        (Event.cross "intersect" 4 4 (sampleEdge 101 0 0 0 1 8 8) (sampleEdge 145 4 8 0 5 0 8))
        ⟨[], triangleEdges, ∅⟩).isNone = true) ∧
    (∀ (F : Type) (p : Prims F) (ev : Event F) (s : SweepState F),
      2 < s.statusQueue.length →
      ((stdFind p.edgeEq s.statusQueue ev.edge = some 0 ∧
          stdFind p.edgeEq s.statusQueue ev.otherEdge = some (s.statusQueue.length - 1)) ∨
        (stdFind p.edgeEq s.statusQueue ev.otherEdge = some 0 ∧
          stdFind p.edgeEq s.statusQueue ev.edge = some (s.statusQueue.length - 1))) →
      s.statusQueue[s.statusQueue.length - 1 + 1]? = none ∧ doCross p ev s = none) := by
  refine ⟨⟨by decide, by decide, by decide⟩, ?_⟩
  intro F p ev s hlen h
  have hnone : s.statusQueue[s.statusQueue.length - 1 + 1]? = none :=
    List.getElem?_eq_none (by omega)
  refine ⟨hnone, ?_⟩
  unfold doCross
  rw [if_neg (by omega)]
  rcases h with ⟨h1, h2⟩ | ⟨h1, h2⟩
  · simp only [h1, h2]
    have e1 : ¬ (0 > s.statusQueue.length - 1) := by omega
    simp [e1, hnone]
  · simp only [h1, h2]
    have e1 : s.statusQueue.length - 1 > 0 := by omega
    simp [e1, hnone]

theorem doBegin_cases_witness :
    (⟨[], [sampleEdge 101 0 0 0 1 8 8], ∅⟩ : SweepState Int).statusQueue ≠ [] ∧
    (statusAfterBegin samplePrims
        (Event.atPoint "begin" (sampleEdge 123 2 3 0 3 3 8).begin
          (sampleEdge 123 2 3 0 3 3 8) 2)
        ⟨[], [sampleEdge 101 0 0 0 1 8 8], ∅⟩).map (fun e => e.index) = [101, 123] ∧
    (statusAfterBegin samplePrims
        (Event.atPoint "begin" (sampleEdge 123 2 3 0 3 3 8).begin
          (sampleEdge 123 2 3 0 3 3 8) 2)
        ⟨[], [sampleEdge 101 0 0 0 1 8 8], ∅⟩).Perm
      (([sampleEdge 101 0 0 0 1 8 8] ++ [sampleEdge 123 2 3 0 3 3 8]).map
        fun e => setCrossingPointX samplePrims e 0) :=
  ⟨by decide, by decide,
    (doBegin_cases samplePrims
      (Event.atPoint "begin" (sampleEdge 123 2 3 0 3 3 8).begin (sampleEdge 123 2 3 0 3 3 8) 2)
      ⟨[], [sampleEdge 101 0 0 0 1 8 8], ∅⟩ (by decide)).1⟩

/-! ### The edge key -/

theorem decimalAux_eq (fuel : Nat) :
    ∀ (n : Nat) (acc : List Nat), n < fuel →
      decimalAux fuel n acc
        = (if n = 0 then [0] else (Nat.digits 10 n).reverse) ++ acc := by
  induction fuel with
  | zero => intro n acc h; omega
  | succ fuel ih =>
    intro n acc h
    rw [decimalAux]
    by_cases h10 : n < 10
    · rw [if_pos h10]
      by_cases h0 : n = 0
      · simp [h0]
      · rw [if_neg h0, Nat.digits_of_lt 10 n h0 h10]
        simp
    · rw [if_neg h10, ih (n / 10) _ (by omega)]
      have h0 : n ≠ 0 := by omega
      have hd : n / 10 ≠ 0 := by omega
      rw [if_neg hd, if_neg h0]
      have : Nat.digits 10 n = (n % 10) :: Nat.digits 10 (n / 10) := by
        rw [Nat.digits_def' (by norm_num) (by omega)]
      rw [this]
      simp

theorem decimal_eq (n : Nat) :
    decimal n = if n = 0 then [0] else (Nat.digits 10 n).reverse := by
  rw [decimal, decimalAux_eq (n + 1) n [] (by omega)]
  simp

theorem numeralValue_eq (digits : List Nat) :
    numeralValue digits = Nat.ofDigits 10 digits.reverse := by
  rw [numeralValue, Nat.ofDigits_eq_foldr, List.foldr_reverse]
  congr 1
  funext value d
  simp [Nat.mul_comm, Nat.add_comm]

theorem decimal_lt_ten (n d : Nat) (h : d ∈ decimal n) : d < 10 := by
  rw [decimal_eq] at h
  split_ifs at h
  · simp at h; omega
  · exact Nat.digits_lt_base (by norm_num) (List.mem_reverse.1 h)

theorem decimal_numeralValue (digits : List Nat) (tl : List Nat)
    (hd : digits = 1 :: tl) (hlt : ∀ d ∈ digits, d < 10) :
    decimal (numeralValue digits) = digits := by
  have hdig : Nat.digits 10 (Nat.ofDigits 10 digits.reverse) = digits.reverse := by
    apply Nat.digits_ofDigits 10 (by norm_num)
    · intro l hl
      exact hlt l (List.mem_reverse.1 hl)
    · intro h
      rw [List.getLast_reverse]
      simp [hd]
  have hne : Nat.ofDigits 10 digits.reverse ≠ 0 := by
    intro h0
    rw [h0] at hdig
    simp [hd] at hdig
  rw [decimal_eq, numeralValue_eq, if_neg hne, hdig, List.reverse_reverse]

theorem edgeIndex_eq (a b : Nat) :
    edgeIndex a b
      = numeralValue (1 :: (decimal (min a b) ++ decimal (max a b))) % 2 ^ 32 := by
  unfold edgeIndex asUnsigned
  by_cases h : a < b
  · simp [h, Nat.min_eq_left (Nat.le_of_lt h), Nat.max_eq_right (Nat.le_of_lt h)]
  · have h' : b ≤ a := Nat.le_of_not_lt h
    simp [h, Nat.min_eq_right h', Nat.max_eq_left h']

/-- C12, the claim as stated fails: for the UV indices 50000 and 50001 the numeral
`15000050001` does not fit the 32 bits of the key, and the key is not the number with
these digits. -/
theorem edgeIndex_exceeds_width :
    decimal (edgeIndex 50000 50001)
      ≠ 1 :: (decimal (min 50000 50001) ++ decimal (max 50000 50001)) ∧
    edgeIndex 50000 50001 < 2 ^ 32 ∧
    2 ^ 32 ≤ numeralValue (1 :: (decimal 50000 ++ decimal 50001)) := by
  decide

/-- C12, amended: the key built for `(a, b)` is the key built for `(b, a)`; it is the
value of the numeral `1`, digits of `min a b`, digits of `max a b`, stored in 32
bits; so when that value is below `2 ^ 32` the decimal digits of the key are exactly
these; indices 0 and 25 give 1025. -/
theorem edgeIndex_symmetric (a b : Nat) :
    edgeIndex a b = edgeIndex b a ∧
    edgeIndex a b
      = numeralValue (1 :: (decimal (min a b) ++ decimal (max a b))) % 2 ^ 32 ∧
    (numeralValue (1 :: (decimal (min a b) ++ decimal (max a b))) < 2 ^ 32 →
      decimal (edgeIndex a b) = 1 :: (decimal (min a b) ++ decimal (max a b))) ∧
    edgeIndex 0 25 = 1025 := by
  refine ⟨?_, edgeIndex_eq a b, ?_, by decide⟩
  · rw [edgeIndex_eq, edgeIndex_eq, Nat.min_comm, Nat.max_comm]
  · intro h
    rw [edgeIndex_eq, Nat.mod_eq_of_lt h]
    apply decimal_numeralValue _ _ rfl
    intro d hd
    simp only [List.mem_cons, List.mem_append] at hd
    rcases hd with rfl | hd | hd
    · norm_num
    · exact decimal_lt_ten _ _ hd
    · exact decimal_lt_ten _ _ hd

/-- C13, the claim as stated fails on its example: the pairs `{1, 23}` and `{12, 3}`
get the different keys 1123 and 1312, the smaller index being written first. -/
theorem edgeIndex_example_differs :
    edgeIndex 1 23 = 1123 ∧ edgeIndex 12 3 = 1312 ∧ edgeIndex 1 23 ≠ edgeIndex 12 3 := by
  decide

/-- C13, amended: two different unordered pairs of UV indices can get the same key;
`{1, 234}` and `{12, 34}` both get 11234. -/
theorem edgeIndex_ambiguous :
    (∃ a b c d : Nat, ({a, b} : Finset Nat) ≠ {c, d} ∧ edgeIndex a b = edgeIndex c d) ∧
    edgeIndex 1 234 = 11234 ∧ edgeIndex 12 34 = 11234 ∧
    edgeIndex 234 1 = 11234 ∧ edgeIndex 34 12 = 11234 := by
  refine ⟨⟨1, 234, 12, 34, by decide, by decide⟩, by decide, by decide, by decide, by decide⟩

/-! ### The edge construction loop -/

theorem ShellsGrow.refl {F : Type} (lt : UvEdge F → UvEdge F → Bool) (sh : List (UvShell F)) :
    ShellsGrow lt sh sh :=
  ⟨rfl, fun _ shell h => ⟨shell, h, fun _ he => he⟩⟩

theorem ShellsGrow.trans {F : Type} {lt : UvEdge F → UvEdge F → Bool}
    {sh sh1 sh2 : List (UvShell F)} (h1 : ShellsGrow lt sh sh1) (h2 : ShellsGrow lt sh1 sh2) :
    ShellsGrow lt sh sh2 := by
  refine ⟨h2.1.trans h1.1, fun i shell h => ?_⟩
  obtain ⟨shell1, hs1, hm1⟩ := h1.2 i shell h
  obtain ⟨shell2, hs2, hm2⟩ := h2.2 i shell1 hs1
  exact ⟨shell2, hs2, fun e he => hm2 e (hm1 e he)⟩

theorem stdFind_some {α : Type} (eq : α → α → Bool) (x : α) :
    ∀ (l : List α) (k : Nat), stdFind eq l x = some k →
      ∃ y, l[k]? = some y ∧ eq y x = true := by
  intro l
  induction l with
  | nil => intro k h; simp [stdFind] at h
  | cons y ys ih =>
    intro k h
    rw [stdFind] at h
    split_ifs at h with hy
    · cases h; exact ⟨y, by simp, hy⟩
    · simp only [Option.map_eq_some'] at h
      obtain ⟨j, hj, rfl⟩ := h
      obtain ⟨z, hz, hzx⟩ := ih j hj
      exact ⟨z, by simpa using hz, hzx⟩

theorem stdFind_ne_none {α : Type} (eq : α → α → Bool) (x : α) :
    ∀ l : List α, (∃ y ∈ l, eq y x = true) → stdFind eq l x ≠ none := by
  intro l
  induction l with
  | nil => rintro ⟨y, hy, _⟩; cases hy
  | cons z zs ih =>
    rintro ⟨y, hy, hyx⟩
    rw [stdFind]
    split_ifs with hz
    · simp
    · rcases List.mem_cons.1 hy with h | h
      · rw [h] at hyx; exact absurd hyx hz
      · have := ih ⟨y, h, hyx⟩
        cases hf : stdFind eq zs x with
        | none => exact absurd hf this
        | some k => simp

theorem perm_cons_eraseIdx {α : Type} (a : α) :
    ∀ (l : List α) (k : Nat), l[k]? = some a → l.Perm (a :: l.eraseIdx k) := by
  intro l
  induction l with
  | nil => intro k h; simp at h
  | cons y ys ih =>
    intro k h
    cases k with
    | zero =>
      simp only [List.getElem?_cons_zero, Option.some.injEq] at h
      subst h
      simp
    | succ k =>
      simp only [List.getElem?_cons_succ] at h
      simp only [List.eraseIdx_cons_succ]
      exact ((ih k h).cons y).trans (List.Perm.swap a y _)

theorem doEnd_found {F : Type} (p : Prims F) (ev : Event F) (s : SweepState F) (k : Nat)
    (h : stdFind p.edgeEq s.statusQueue ev.edge = some k) :
    ∃ s1, Checked p s s1 ∧
      doEnd p ev s = some (true, { s1 with statusQueue := s.statusQueue.eraseIdx k }) := by
  have hk := stdFind_lt p.edgeEq ev.edge _ k h
  unfold doEnd
  simp only [h]
  rw [if_neg (by omega)]
  by_cases h2 : s.statusQueue.length ≤ 2
  · exact ⟨s, Checked.refl, by simp [h2]⟩
  · by_cases h0 : k = 0
    · exact ⟨s, Checked.refl, by simp [h2, h0]⟩
    · by_cases h1 : k = s.statusQueue.length - 1
      · exact ⟨s, Checked.refl, by simp [h2, h0, h1]⟩
      · refine ⟨checkEdgesAndCreateEvent p s.statusQueue[k - 1] s.statusQueue[k + 1] s,
          Checked.step Checked.refl (show k - 1 ≠ k + 1 by omega)
            (List.getElem?_eq_getElem (by omega)) (List.getElem?_eq_getElem (by omega)), ?_⟩
        rw [if_neg h2, if_neg h0, if_neg h1]
        simp [List.getElem?_eq_getElem (show k + 1 < s.statusQueue.length by omega),
          List.getElem?_eq_getElem (show k - 1 < s.statusQueue.length by omega)]

theorem doBegin_isSome {F : Type} (p : Prims F) (ev : Event F) (s : SweepState F) :
    ∃ r, doBegin p ev s = some r := by
  unfold doBegin
  dsimp only
  split_ifs with h1
  · exact ⟨_, rfl⟩
  · have hlen : (stdSort p.edgeCmp ((s.statusQueue ++ [ev.edge]).map
        fun e => setCrossingPointX p e ev.v)).length = s.statusQueue.length + 1 := by
      rw [(stdSort_perm _ _).length_eq]; simp
    simp only [List.length_append, List.length_singleton] at h1
    cases hf : stdFind p.edgeEq (stdSort p.edgeCmp ((s.statusQueue ++ [ev.edge]).map
        fun e => setCrossingPointX p e ev.v)) ev.edge with
    | none => exact ⟨_, rfl⟩
    | some k =>
      have hk := stdFind_lt p.edgeEq ev.edge _ k hf
      simp only [List.getElem?_eq_getElem hk, Option.some_bind]
      split_ifs with h0 h2
      · rw [List.getElem?_eq_getElem (by omega)]; exact ⟨_, rfl⟩
      · rw [List.getElem?_eq_getElem (by omega)]; exact ⟨_, rfl⟩
      · simp only [List.length_append, List.length_singleton, Nat.add_sub_cancel] at h2
        rw [List.getElem?_eq_getElem (by omega), List.getElem?_eq_getElem (by omega)]
        exact ⟨_, rfl⟩

theorem pendingEnds_perm {F : Type} {q q1 : List (Event F)} (h : q.Perm q1) :
    (pendingEnds q).Perm (pendingEnds q1) :=
  (h.filter _).map _

theorem pendingEnds_checkEdges {F : Type} (p : Prims F) (a b : UvEdge F)
    (s : SweepState F) :
    (pendingEnds (checkEdgesAndCreateEvent p a b s).eventQueue).Perm
      (pendingEnds s.eventQueue) := by
  rw [checkEdgesAndCreateEvent_eventQueue]
  split_ifs
  · refine (pendingEnds_perm (stdSort_perm _ _)).trans ?_
    simp [pendingEnds, Event.cross]
  · exact List.Perm.refl _

theorem Checked.ends_perm {F : Type} {p : Prims F} {s s1 : SweepState F}
    (h : Checked p s s1) :
    (pendingEnds s1.eventQueue).Perm (pendingEnds s.eventQueue) := by
  induction h with
  | refl => exact List.Perm.refl _
  | step _ _ _ _ ih => exact (pendingEnds_checkEdges _ _ _ _).trans ih

theorem Checked.tags {F : Type} {p : Prims F} {s s1 : SweepState F}
    (h : Checked p s s1) :
    ∀ ev ∈ s1.eventQueue, ev ∈ s.eventQueue ∨ ev.status = "intersect" := by
  induction h with
  | refl => exact fun ev hev => Or.inl hev
  | @step s2 i j a b _ _ _ _ ih =>
    intro ev hev
    rw [checkEdgesAndCreateEvent_eventQueue] at hev
    split_ifs at hev
    · have := (stdSort_perm _ _).subset hev
      rcases List.mem_append.1 this with h1 | h1
      · exact ih ev h1
      · simp only [List.mem_singleton] at h1
        exact Or.inr (by rw [h1]; rfl)
    · exact ih ev hev

theorem pendingEnds_cons_end {F : Type} (ev : Event F) (q : List (Event F))
    (h : ev.status = "end") :
    pendingEnds (ev :: q) = ev.edge.geom :: pendingEnds q := by
  simp [pendingEnds, h]

theorem pendingEnds_cons_other {F : Type} (ev : Event F) (q : List (Event F))
    (h : ev.status ≠ "end") :
    pendingEnds (ev :: q) = pendingEnds q := by
  simp [pendingEnds, h]

theorem StatusInv.status_subset {F : Type}
    {G : List (UvPoint F × UvPoint F × Nat × Int × Int)} {s : SweepState F}
    (h : StatusInv G s) : ∀ e ∈ s.statusQueue, e.geom ∈ G := by
  intro e he
  exact h.ends.subset (h.balance.subset
    (List.mem_append_left _ (List.mem_map_of_mem _ he)))

theorem StatusInv.of_checked {F : Type} {p : Prims F}
    {G : List (UvPoint F × UvPoint F × Nat × Int × Int)} {s s1 : SweepState F}
    (hch : Checked p s s1)
    (hbal : (s.statusQueue.map UvEdge.geom ++ pendingBegins s.eventQueue).Perm
      (pendingEnds s.eventQueue))
    (hends : (pendingEnds s.eventQueue).Subperm G)
    (htags : ∀ ev ∈ s.eventQueue,
      ev.status = "begin" ∨ ev.status = "end" ∨ ev.status = "intersect") :
    StatusInv G s1 := by
  refine ⟨?_, ?_, ?_⟩
  · rw [hch.statusQueue_eq]
    exact ((hch.pending_perm.append_left _).trans hbal).trans hch.ends_perm.symm
  · exact (List.Perm.subperm_right hch.ends_perm).2 hends
  · intro ev hev
    rcases hch.tags ev hev with h | h
    · exact htags ev h
    · exact Or.inr (Or.inr h)

theorem checkStep_statusInv {F : Type} (p : Prims F)
    (G : List (UvPoint F × UvPoint F × Nat × Int × Int))
    (hid1 : ∀ a b : UvEdge F, a.geom = b.geom → p.edgeEq a b = true)
    (hid2 : ∀ a b : UvEdge F, a.geom ∈ G → b.geom ∈ G → p.edgeEq a b = true →
      a.geom = b.geom)
    (ev : Event F) (s : SweepState F)
    (hinv : StatusInv G { s with eventQueue := ev :: s.eventQueue })
    (hhead : EndAfterBegin (ev :: s.eventQueue)) :
    (∀ s1, checkStep p ev s = .inl s1 → StatusInv G s1) ∧
    (∀ r, checkStep p ev s = .inr r → r.isUndefinedRead = true ∧ StatusInv G r.state) := by
  obtain ⟨hbal, hends, htags⟩ := hinv
  simp only at hbal hends htags
  have hrest : ∀ e ∈ s.eventQueue,
      e.status = "begin" ∨ e.status = "end" ∨ e.status = "intersect" :=
    fun e he => htags e (List.mem_cons_of_mem _ he)
  unfold checkStep
  by_cases hb : ev.status = "begin"
  · -- a begin event
    have hne : ev.status ≠ "end" := by rw [hb]; decide
    rw [pendingBegins_cons_begin _ _ hb, pendingEnds_cons_other _ _ hne] at hbal
    rw [pendingEnds_cons_other _ _ hne] at hends
    obtain ⟨r, hr⟩ := doBegin_isSome p ev s
    obtain ⟨st, hperm, hch⟩ := doBegin_checked p ev s r hr
    simp only [hb, if_true, hr]
    refine ⟨fun s1 h1 => ?_, fun r1 h1 => by cases h1⟩
    cases h1
    refine StatusInv.of_checked hch ?_ hends hrest
    simp only
    refine ((hperm.append_right _).trans ?_).trans hbal
    simp
  · by_cases he : ev.status = "end"
    · -- an end event
      rw [pendingBegins_cons_other _ _ hb, pendingEnds_cons_end _ _ he] at hbal
      rw [pendingEnds_cons_end _ _ he] at hends
      have hnot := hhead ev s.eventQueue rfl he
      have hmem : ev.edge.geom ∈ s.statusQueue.map UvEdge.geom := by
        have := hbal.symm.subset (List.mem_cons_self _ _)
        rcases List.mem_append.1 this with h | h
        · exact h
        · exact absurd h hnot
      obtain ⟨y, hy, hyg⟩ := List.mem_map.1 hmem
      have hsub : ∀ e ∈ s.statusQueue, e.geom ∈ G := by
        intro e hes
        exact hends.subset (hbal.subset
          (List.mem_append_left _ (List.mem_map_of_mem _ hes)))
      have hevG : ev.edge.geom ∈ G := hends.subset (List.mem_cons_self _ _)
      cases hf : stdFind p.edgeEq s.statusQueue ev.edge with
      | none => exact absurd hf (stdFind_ne_none _ _ _ ⟨y, hy, hid1 _ _ hyg⟩)
      | some k =>
        obtain ⟨z, hz, hzeq⟩ := stdFind_some _ _ _ k hf
        have hzg : z.geom = ev.edge.geom :=
          hid2 z ev.edge (hsub z (List.getElem?_mem hz)) hevG hzeq
        obtain ⟨s1, hch, hdo⟩ := doEnd_found p ev s k hf
        simp only [hb, he, if_true, if_false, hdo]
        refine ⟨fun s2 h2 => ?_, fun r1 h1 => by cases h1⟩
        cases h2
        have hp1 : (s.statusQueue.map UvEdge.geom).Perm
            (ev.edge.geom :: (s.statusQueue.eraseIdx k).map UvEdge.geom) := by
          have := (perm_cons_eraseIdx z s.statusQueue k hz).map UvEdge.geom
          simpa [hzg] using this
        have hbal1 : ((s.statusQueue.eraseIdx k).map UvEdge.geom ++
            pendingBegins s.eventQueue).Perm (pendingEnds s.eventQueue) := by
          have h1 := (hp1.append_right (pendingBegins s.eventQueue)).symm.trans hbal
          exact (List.Perm.cons_inv h1)
        refine ⟨?_, ?_, ?_⟩
        · simp only
          exact ((hch.pending_perm.append_left _).trans hbal1).trans hch.ends_perm.symm
        · simp only
          exact (List.Perm.subperm_right hch.ends_perm).2
            ((List.sublist_cons_self _ _).subperm.trans hends)
        · intro e hes
          rcases hch.tags e hes with h | h
          · exact hrest e h
          · exact Or.inr (Or.inr h)
    · -- an intersect event
      have hi : ev.status = "intersect" := by
        rcases htags ev (List.mem_cons_self _ _) with h | h | h
        · exact absurd h hb
        · exact absurd h he
        · exact h
      rw [pendingBegins_cons_other _ _ hb, pendingEnds_cons_other _ _ he] at hbal
      rw [pendingEnds_cons_other _ _ he] at hends
      rw [if_neg hb, if_neg he, if_pos hi]
      cases hd : doCross p ev s with
      | none =>
        constructor
        · intro s1 h1
          cases h1
        · intro r1 h1
          cases h1
          exact ⟨rfl, ⟨hbal, hends, hrest⟩⟩
      | some r =>
        constructor
        · intro s1 h1
          cases h1
          exact StatusInv.of_checked (doCross_checked p ev s r hd) hbal hends hrest
        · intro r1 h1
          cases h1

theorem checkLoop_statusInv {F : Type} (p : Prims F)
    (G : List (UvPoint F × UvPoint F × Nat × Int × Int))
    (hid1 : ∀ a b : UvEdge F, a.geom = b.geom → p.edgeEq a b = true)
    (hid2 : ∀ a b : UvEdge F, a.geom ∈ G → b.geom ∈ G → p.edgeEq a b = true →
      a.geom = b.geom) (fuel : Nat) :
    ∀ s : SweepState F, StatusInv G s →
      (∀ m, EndAfterBegin (checkLoop p m s).state.eventQueue) →
      StatusInv G (checkLoop p fuel s).state ∧
      (∀ st s1, checkLoop p fuel s = .finished st s1 →
        st = .kSuccess ∧ s1.eventQueue = []) := by
  induction fuel with
  | zero =>
    intro s hinv _
    rcases s with ⟨q, st, R⟩
    cases q with
    | nil =>
      refine ⟨by simpa [checkLoop, Run.state] using hinv, ?_⟩
      intro st1 s1 h
      simp only [checkLoop, Run.finished.injEq] at h
      exact ⟨h.1.symm, by rw [← h.2]⟩
    | cons ev rest =>
      refine ⟨by simpa [checkLoop, Run.state] using hinv, ?_⟩
      intro st1 s1 h
      simp [checkLoop] at h
  | succ n ih =>
    intro s hinv hord
    rcases s with ⟨q, st, R⟩
    cases q with
    | nil =>
      refine ⟨by simpa [checkLoop, Run.state] using hinv, ?_⟩
      intro st1 s1 h
      simp only [checkLoop, Run.finished.injEq] at h
      exact ⟨h.1.symm, by rw [← h.2]⟩
    | cons ev rest =>
      have hhead : EndAfterBegin (ev :: rest) := by
        have := hord 0
        simpa [checkLoop, Run.state] using this
      obtain ⟨hl, hr⟩ := checkStep_statusInv p G hid1 hid2 ev ⟨rest, st, R⟩ hinv hhead
      simp only [checkLoop]
      cases hstep : checkStep p ev ⟨rest, st, R⟩ with
      | inl s1 =>
        refine ih s1 (hl s1 hstep) ?_
        intro m
        have := hord (m + 1)
        simpa [checkLoop, hstep] using this
      | inr r =>
        obtain ⟨hu, hi⟩ := hr r hstep
        refine ⟨hi, ?_⟩
        intro st1 s1 h
        simp only at h
        rw [h] at hu
        simp [Run.isUndefinedRead] at hu

theorem pendingEnds_initEvents {F : Type} [Inhabited F] (edges : List (UvEdge F)) :
    ∀ k : Int, pendingEnds (initEvents edges k) = edges.map UvEdge.geom := by
  induction edges with
  | nil => intro k; rfl
  | cons e rest ih =>
    intro k
    simp [initEvents, pendingEnds_cons_end, pendingEnds_cons_other, Event.atPoint, ih]

theorem tags_initEvents {F : Type} [Inhabited F] (edges : List (UvEdge F)) :
    ∀ (k : Int), ∀ ev ∈ initEvents edges k,
      ev.status = "begin" ∨ ev.status = "end" ∨ ev.status = "intersect" := by
  induction edges with
  | nil => intro k ev h; cases h
  | cons e rest ih =>
    intro k ev h
    simp only [initEvents, List.mem_cons] at h
    rcases h with h | h | h
    · exact Or.inl (by rw [h]; rfl)
    · exact Or.inr (Or.inl (by rw [h]; rfl))
    · exact ih _ ev h

theorem endAfterBegin_of_test {F : Type} [DecidableEq F] (q : List (Event F))
    (h : endAfterBeginTest q = true) : EndAfterBegin q := by
  intro ev rest hq hend
  subst hq
  simpa [endAfterBeginTest, hend] using h

/-- C14: on an edge set of distinct edges that `operator==` tells apart (whatever
their sweep coordinate), and when no `end` event comes to the head of the queue while
the `begin` event of its edge is still queued, then after any number of loop
iterations of `check` the status structure holds each edge once at most, and holds
exactly the edges of the set whose `begin` event is no longer queued and whose `end`
event still is; a run that leaves the loop does so with success and an empty
status structure. -/
theorem status_invariant {F : Type} [Inhabited F] (p : Prims F) (edges : List (UvEdge F))
    (hnodup : (edges.map UvEdge.geom).Nodup)
    (hid1 : ∀ a b : UvEdge F, a.geom = b.geom → p.edgeEq a b = true)
    (hid2 : ∀ a b : UvEdge F, a.geom ∈ edges.map UvEdge.geom →
      b.geom ∈ edges.map UvEdge.geom → p.edgeEq a b = true → a.geom = b.geom)
    (hord : ∀ m, EndAfterBegin (check p m edges ∅).state.eventQueue) (n : Nat) :
    ((check p n edges ∅).state.statusQueue.map UvEdge.geom).Nodup ∧
    (∀ g, g ∈ (check p n edges ∅).state.statusQueue.map UvEdge.geom ↔
      g ∈ edges.map UvEdge.geom ∧ g ∉ pendingBegins (check p n edges ∅).state.eventQueue ∧
        g ∈ pendingEnds (check p n edges ∅).state.eventQueue) ∧
    (∀ st s1, check p n edges ∅ = .finished st s1 →
      st = .kSuccess ∧ s1.statusQueue = [] ∧ s1.eventQueue = []) := by
  have hinit : StatusInv (edges.map UvEdge.geom)
      ⟨stdSort p.eventLt (initEvents edges 0), [], ∅⟩ := by
    have hb : (pendingBegins (stdSort p.eventLt (initEvents edges 0))).Perm
        (edges.map UvEdge.geom) := by
      rw [← pendingBegins_initEvents edges 0]
      exact pendingBegins_perm (stdSort_perm _ _)
    have he : (pendingEnds (stdSort p.eventLt (initEvents edges 0))).Perm
        (edges.map UvEdge.geom) := by
      rw [← pendingEnds_initEvents edges 0]
      exact pendingEnds_perm (stdSort_perm _ _)
    refine ⟨?_, he.subperm, ?_⟩
    · simpa using hb.trans he.symm
    · intro ev hev
      exact tags_initEvents edges 0 ev ((stdSort_perm _ _).subset hev)
  obtain ⟨hinv, hfin⟩ := checkLoop_statusInv p _ hid1 hid2 n _ hinit hord
  have hinv1 : StatusInv (edges.map UvEdge.geom) (check p n edges ∅).state := hinv
  obtain ⟨hbal, hends, _⟩ := hinv1
  have hnd := hbal.nodup_iff.2 (subperm_nodup hends hnodup)
  have hdisj := List.nodup_append.1 hnd
  refine ⟨hdisj.1, ?_, ?_⟩
  · intro g
    constructor
    · intro hg
      have hge := hbal.subset (List.mem_append_left _ hg)
      exact ⟨hends.subset hge, fun hgb => hdisj.2.2 hg hgb, hge⟩
    · rintro ⟨_, hnb, hge⟩
      rcases List.mem_append.1 (hbal.symm.subset hge) with h | h
      · exact h
      · exact absurd h hnb
  · intro st s1 h
    have hfin1 := hfin st s1 h
    have hstate : (check p n edges ∅).state = s1 := by rw [h]; rfl
    rw [hstate] at hbal
    rw [hfin1.2] at hbal
    have hnil : s1.statusQueue.map UvEdge.geom ++ pendingBegins [] = [] :=
      List.Perm.eq_nil (by simpa [pendingEnds] using hbal)
    refine ⟨hfin1.1, ?_, hfin1.2⟩
    simpa [pendingBegins] using hnil

theorem sample_order (m : Nat) :
    EndAfterBegin (check samplePrims m [edgeX, edgeY] ∅).state.eventQueue := by
  apply endAfterBegin_of_test
  have h5 : (check samplePrims 5 [edgeX, edgeY] ∅).isOutOfFuel = false := by decide
  rcases m with _ | _ | _ | _ | _ | m
  · decide
  · decide
  · decide
  · decide
  · decide
  · have e : m + 1 + 1 + 1 + 1 + 1 = 5 + m := by omega
    have : check samplePrims (5 + m) [edgeX, edgeY] ∅ = check samplePrims 5 [edgeX, edgeY] ∅ :=
      checkLoop_add_fuel samplePrims m 5 _ h5
    rw [e, this]
    decide

theorem samplePrims_geom_of_edgeEq (a b : UvEdge Int)
    (ha : a.geom ∈ [edgeX, edgeY].map UvEdge.geom)
    (hb : b.geom ∈ [edgeX, edgeY].map UvEdge.geom)
    (h : samplePrims.edgeEq a b = true) : a.geom = b.geom := by
  simp only [samplePrims, decide_eq_true_eq] at h
  simp only [List.map_cons, List.map_nil, List.mem_cons, List.mem_singleton,
    List.not_mem_nil, or_false] at ha hb
  have hidx : ∀ e : UvEdge Int, e.geom = edgeX.geom → e.index = 101 := by
    intro e he
    simp only [UvEdge.geom, Prod.mk.injEq] at he
    rw [he.2.2.1]; rfl
  have hidy : ∀ e : UvEdge Int, e.geom = edgeY.geom → e.index = 123 := by
    intro e he
    simp only [UvEdge.geom, Prod.mk.injEq] at he
    rw [he.2.2.1]; rfl
  rcases ha with ha | ha <;> rcases hb with hb | hb
  · rw [ha, hb]
  · have := hidx a ha; have := hidy b hb; omega
  · have := hidy a ha; have := hidx b hb; omega
  · rw [ha, hb]

theorem status_invariant_witness :
    ([edgeX, edgeY].map UvEdge.geom).Nodup ∧
    (check samplePrims 5 [edgeX, edgeY] ∅).isOutOfFuel = false ∧
    ((check samplePrims 2 [edgeX, edgeY] ∅).state.statusQueue.map UvEdge.geom).Nodup ∧
    (∀ st s1, check samplePrims 5 [edgeX, edgeY] ∅ = .finished st s1 →
      st = .kSuccess ∧ s1.statusQueue = [] ∧ s1.eventQueue = []) :=
  ⟨by decide, by decide,
    (status_invariant samplePrims [edgeX, edgeY] (by decide) samplePrims_edgeEq_of_geom
      samplePrims_geom_of_edgeEq sample_order 2).1,
    (status_invariant samplePrims [edgeX, edgeY] (by decide) samplePrims_edgeEq_of_geom
      samplePrims_geom_of_edgeEq sample_order 5).2.2⟩

end FindUvOverlaps2
